import Mathlib

/-!
Verification development for the SLEDAI repository.

The repository has two independent pipelines:
* the SLED signal engine (`sled_core.py`): a metric pipeline over a price /
  volume series (log returns, rolling volatility, entropy "flow", gate,
  phase-0 signal classification) plus a summarize step and a news filter;
* a cellular-automaton toy with a density clustering step
  (`core/proto_objects.py`) and, per the spec, a centroid-matching
  proto-object tracker (the tracker itself is not present under `src/`).

Python floats are modelled as real numbers; a pandas NaN cell is modelled
as `none` in `Option ℝ`.  Grid coordinates in the clustering code are
rational, and a Euclidean-distance comparison `dist ≤ eps` is embedded as
the equivalent `dist² ≤ eps²` comparison (for `0 ≤ eps`), which keeps that
part of the development decidable.
-/

/-! ### String constants (signal vocabulary and reason strings) -/

def waitStr : String := "WAIT"

def buyStr : String := "BUY"

def sellStr : String := "SELL"

def negativeStr : String := "NEGATIVE"

def positiveStr : String := "POSITIVE"

def neutralStr : String := "NEUTRAL"

def reasonNoSignal : String := "No SLED signal"

def reasonNoNews : String := "No relevant news"

def reasonBuyCancelled : String := "Negative news risk (BUY cancelled)"

def reasonBuyConfirmed : String := "News confirms BUY"

def reasonSellCancelled : String := "Positive news conflict (SELL cancelled)"

def reasonSellConfirmed : String := "News confirms SELL"

def reasonDefault : String := "Default"

/-! ### News filter (`sled_core.apply_news_filter`)

A news item is read by the filter only through its `"sentiment"` field,
with `"NEUTRAL"` as the default when the field is absent
(`n.get("sentiment", "NEUTRAL")`). -/

structure NewsItem where
  sentiment : Option String

def NewsItem.sentimentOf (n : NewsItem) : String :=
  n.sentiment.getD neutralStr

/-- `str.upper()`: upper-case every character. -/
def upperStr (s : String) : String :=
  String.mk (s.data.map Char.toUpper)

/-- Embedding of `sled_core.apply_news_filter`.  The Python parameter
`sled_signal: str` may be `None` (modelled as `none`); `sled_signal or
"WAIT"` replaces a `None` or empty string by `"WAIT"` before upper-casing. -/
def apply_news_filter (sledSignal : Option String) (newsItems : List NewsItem) :
    String × String :=
  let sig := upperStr (match sledSignal with
    | none => waitStr
    | some s => if s.isEmpty then waitStr else s)
  if sig = waitStr then (waitStr, reasonNoSignal)
  else if newsItems.isEmpty then (sig, reasonNoNews)
  else
    let sentiments := newsItems.map NewsItem.sentimentOf
    if sig = buyStr then
      if negativeStr ∈ sentiments then (waitStr, reasonBuyCancelled)
      else (buyStr, reasonBuyConfirmed)
    else if sig = sellStr then
      if positiveStr ∈ sentiments then (waitStr, reasonSellCancelled)
      else (sellStr, reasonSellConfirmed)
    else (waitStr, reasonDefault)

/-- The normalisation the filter applies to its input signal before
branching: `(sled_signal or "WAIT").upper()`. -/
def normSignal (sledSignal : Option String) : String :=
  upperStr (match sledSignal with
    | none => waitStr
    | some s => if s.isEmpty then waitStr else s)

/-! ### Density clustering (`core/proto_objects.cluster_reaction_points`)

Points are rational grid coordinates.  `np.linalg.norm(RP - RP[i]) <= eps`
is embedded as squared-distance comparison (equivalent for `0 ≤ eps`).
The Python growth loop mutates the member set while iterating over a
snapshot of it; the embedding iterates the same monotone expansion operator
pass by pass until it reaches the (identical) least fixpoint, with a fuel
argument bounded by the number of points. -/

def sqDist (p q : ℚ × ℚ) : ℚ :=
  (p.1 - q.1) ^ 2 + (p.2 - q.2) ^ 2

/-- Indices of the points within radius `eps` of point `i`
(`np.where(dists <= eps)[0]`). -/
def nbrs (pts : List (ℚ × ℚ)) (eps : ℚ) (i : ℕ) : Finset ℕ :=
  (Finset.range pts.length).filter fun j =>
    sqDist (pts.getD j (0, 0)) (pts.getD i (0, 0)) ≤ eps ^ 2

/-- One pass of the growth loop: absorb the neighbourhood of every current
member that itself has at least `minSamples` neighbours. -/
def growOnce (pts : List (ℚ × ℚ)) (eps : ℚ) (minSamples : ℕ)
    (c : Finset ℕ) : Finset ℕ :=
  c ∪ c.biUnion fun idx =>
    if minSamples ≤ (nbrs pts eps idx).card then nbrs pts eps idx else ∅

/-- Iterate `growOnce` to its fixpoint (`while changed:` loop), with fuel. -/
def growIter (pts : List (ℚ × ℚ)) (eps : ℚ) (minSamples : ℕ) :
    ℕ → Finset ℕ → Finset ℕ
  | 0, c => c
  | fuel + 1, c =>
    let c2 := growOnce pts eps minSamples c
    if c2 = c then c else growIter pts eps minSamples fuel c2

/-- Body of the outer `for i in range(len(RP))` loop: skip used or
low-density seeds, otherwise grow the seed neighbourhood to a cluster, mark
all its points used and emit it. -/
def clusterStep (pts : List (ℚ × ℚ)) (eps : ℚ) (minSamples : ℕ)
    (acc : Finset ℕ × List (Finset ℕ)) (i : ℕ) : Finset ℕ × List (Finset ℕ) :=
  if i ∈ acc.1 then acc
  else if (nbrs pts eps i).card < minSamples then acc
  else
    let c := growIter pts eps minSamples pts.length (nbrs pts eps i)
    (acc.1 ∪ c, acc.2 ++ [c])

/-- Embedding of `cluster_reaction_points`: clusters are emitted as sets of
indices into the point list. -/
def cluster_reaction_points (pts : List (ℚ × ℚ)) (eps : ℚ) (minSamples : ℕ) :
    List (Finset ℕ) :=
  ((List.range pts.length).foldl (clusterStep pts eps minSamples) (∅, [])).2

/-- The used set together with the emitted clusters (the full fold state). -/
def clusterFold (pts : List (ℚ × ℚ)) (eps : ℚ) (minSamples : ℕ) :
    Finset ℕ × List (Finset ℕ) :=
  (List.range pts.length).foldl (clusterStep pts eps minSamples) (∅, [])

/-- Concrete point list for the clustering analysis: six collinear grid
points (reaction points carry integer grid coordinates). -/
def cexPts : List (ℚ × ℚ) :=
  [(0, 0), (1, 0), (2, 0), (3, 0), (5, 0), (7, 0)]

/-! ### Proto-object persistence tracker

The tracker described in spec §4.2 (centroid matching with birth / survive /
die lifecycle) has no implementation under `src/`; only the clustering step
that feeds it is present.  It is therefore modelled from the spec below. -/

structure ProtoObject where
  id : ℕ
  centroid : ℚ × ℚ
  points : List (ℚ × ℚ)
  age : ℕ

/-- Mean coordinate of a cluster's member points. -/
def centroidOf (ps : List (ℚ × ℚ)) : ℚ × ℚ :=
  ((ps.map Prod.fst).sum / ps.length, (ps.map Prod.snd).sum / ps.length)

structure TrackerState where
  registry : List ProtoObject
  nextId : ℕ

/-- Index of the closest still-unclaimed candidate centroid, by Euclidean
centroid distance (squared-distance comparison; ties resolved to the lowest
index). -/
def bestMatch (cents : List (ℚ × ℚ)) (claimed : Finset ℕ) (c : ℚ × ℚ) :
    Option ℕ :=
  (List.range cents.length).foldl
    (fun best j =>
      if j ∈ claimed then best
      else
        match best with
        | none => some j
        | some b =>
          if sqDist (cents.getD j (0, 0)) c < sqDist (cents.getD b (0, 0)) c
          then some j else best)
    none

/-- Greedy matching pass: previous objects in insertion order each claim
their nearest unclaimed candidate; the match is accepted only when the
centroid distance is at most `distThresh`. -/
def matchFold (distThresh : ℚ) (cents : List (ℚ × ℚ))
    (reg : List ProtoObject) : Finset ℕ × List (ProtoObject × ℕ) :=
  reg.foldl
    (fun acc o =>
      match bestMatch cents acc.1 o.centroid with
      | none => acc
      | some j =>
        if sqDist (cents.getD j (0, 0)) o.centroid ≤ distThresh ^ 2 then
          (insert j acc.1, acc.2 ++ [(o, j)])
        else acc)
    (∅, [])

/-- Modelled from the spec: the per-frame tracker step of §4.2 is not in
`src/` (only its clustering front end is), so it is built here from the
spec's words.  Accepted matches survive with incremented age and replaced
centroid / member points; unmatched previous objects die and are dropped;
unclaimed clusters become births with `age = 1` and the next unused,
monotonically increasing ids.  The `(event, points)` annotation list never
feeds back into the algorithm and is omitted. -/
def advance_frame (distThresh : ℚ) (clusters : List (List (ℚ × ℚ)))
    (st : TrackerState) : TrackerState :=
  let cents := clusters.map centroidOf
  let m := matchFold distThresh cents st.registry
  let survivors := m.2.map fun oj =>
    ProtoObject.mk oj.1.id (cents.getD oj.2 (0, 0)) (clusters.getD oj.2 [])
      (oj.1.age + 1)
  let birthIdx := (List.range clusters.length).filter fun j => j ∉ m.1
  let births := birthIdx.enum.map fun kj =>
    ProtoObject.mk (st.nextId + kj.1) (cents.getD kj.2 (0, 0))
      (clusters.getD kj.2 []) 1
  TrackerState.mk (survivors ++ births) (st.nextId + births.length)

/-- Run the tracker over a frame sequence (strictly frame-sequential). -/
def runFrames (distThresh : ℚ) (st : TrackerState) :
    List (List (List (ℚ × ℚ))) → TrackerState
  | [] => st
  | f :: fs => runFrames distThresh (advance_frame distThresh f st) fs

/-- The ids currently present in the registry. -/
def regIds (st : TrackerState) : List ℕ :=
  st.registry.map ProtoObject.id

/-! ### SLED engine (`sled_core.SLEDEngine`)

Pandas columns are modelled as index functions `ℕ → Option ℝ` over a frame
of `len` rows; a NaN cell is `none`.  A rolling aggregation with window `w`
(pandas default `min_periods = w`) is defined at row `i` exactly when the
window fits (`w ≤ i + 1`, `i < len`) and, for a column input, all `w` cells
of the window are non-NaN; the columns this engine rolls over are NaN-free
or NaN only on a prefix, for which this coincides with pandas counting
non-NaN observations. -/

noncomputable section

/-- Minimum of a list (used for nonempty rolling windows). -/
def aggMin : List ℝ → ℝ
  | [] => 0
  | x :: xs => xs.foldl min x

/-- Maximum of a list (used for nonempty rolling windows). -/
def aggMax : List ℝ → ℝ
  | [] => 0
  | x :: xs => xs.foldl max x

def listMean (xs : List ℝ) : ℝ :=
  xs.sum / xs.length

/-- Sample standard deviation with pandas' default `ddof = 1`. -/
def sampleStd (xs : List ℝ) : ℝ :=
  Real.sqrt ((xs.map fun x => (x - listMean xs) ^ 2).sum / ((xs.length : ℝ) - 1))

/-- `round(x, 4)`: rounding to four decimal places. -/
def round4 (x : ℝ) : ℝ :=
  ((round (x * 10000) : ℤ) : ℝ) / 10000

open Classical in
/-- Quantile with linear interpolation between order statistics (the default
of `pandas.Series.quantile` / `rolling.quantile`). -/
def quantileLinear (q : ℝ) (l : List ℝ) : ℝ :=
  if l.length = 0 then 0
  else
    let s := List.insertionSort (fun a b => a ≤ b) l
    let h := q * ((l.length : ℝ) - 1)
    let j := (⌊h⌋).toNat
    let a := s.getD j 0
    let b := s.getD (j + 1) a
    a + (h - (j : ℝ)) * (b - a)

/-- `np.histogram` bin index: equal-width bins over `[loE, hiE]`, right-open
except for the last bin, which is closed. -/
def binIdx (bins : ℕ) (loE hiE x : ℝ) : ℕ :=
  min (⌊(x - loE) * (bins : ℝ) / (hiE - loE)⌋).toNat (bins - 1)

open Classical in
/-- The histogram of `np.histogram(s, bins)` over bin edges spanning
`[loE, hiE]`: how many samples fall in bin `k`. -/
def histCnt (bins : ℕ) (loE hiE : ℝ) (s : List ℝ) (k : ℕ) : ℕ :=
  s.countP fun x => decide (binIdx bins loE hiE x = k)

/-- Base-2 Shannon entropy of the empirical distribution of a histogram
(`scipy.stats.entropy(p, base=2)` after dropping empty bins); a histogram
with zero total yields `0.0`. -/
def shannonEnt (bins : ℕ) (cnt : ℕ → ℕ) : ℝ :=
  let tot := Finset.sum (Finset.range bins) cnt
  if tot = 0 then 0
  else
    -Finset.sum (Finset.range bins) fun k =>
      if cnt k ≠ 0 then ((cnt k : ℝ) / tot) * Real.logb 2 ((cnt k : ℝ) / tot)
      else 0

open Classical in
/-- Embedding of `get_ent` from `SLEDEngine.calculate`: bucket the window
into `bins` equal-width bins (numpy widens a degenerate range `lo = hi` to
`[lo - 0.5, hi + 0.5]`), drop empty bins, and take base-2 Shannon entropy
of the empirical distribution.  The `len(s) < window` guard of the source
is omitted because the rolling combinators below only ever pass full
windows of exactly `window` samples (pandas `min_periods` semantics). -/
def getEnt (bins : ℕ) (s : List ℝ) : ℝ :=
  let lo := aggMin s
  let hi := aggMax s
  let loE := if lo = hi then lo - 1 / 2 else lo
  let hiE := if lo = hi then hi + 1 / 2 else hi
  shannonEnt bins (histCnt bins loE hiE s)

/-- A price / volume series: `len` chronological rows of close prices and an
optional volume column. -/
structure PriceFrame where
  len : ℕ
  close : ℕ → ℝ
  volume : Option (ℕ → ℝ)

/-- The engine's constructor parameters (`window=20, lookback=100,
entropy_bins=10` at the call sites). -/
structure SLEDEngine where
  window : ℕ
  lookback : ℕ
  entropyBins : ℕ

/-- The window of `w` samples of `f` ending at index `i` (for `w ≤ i + 1`). -/
def winList (f : ℕ → ℝ) (w i : ℕ) : List ℝ :=
  (List.range w).map fun k => f (i + 1 - w + k)

/-- Rolling aggregation over a NaN-free series. -/
def rollingR (w : ℕ) (agg : List ℝ → ℝ) (f : ℕ → ℝ) (len i : ℕ) : Option ℝ :=
  if w ≤ i + 1 ∧ i < len then some (agg (winList f w i)) else none

/-- Rolling aggregation over a column that may contain NaN cells: defined
when the window fits and every cell in it is non-NaN. -/
def rollingO (w : ℕ) (agg : List ℝ → ℝ) (col : ℕ → Option ℝ) (len i : ℕ) :
    Option ℝ :=
  if w ≤ i + 1 ∧ i < len then
    let vals := (List.range w).map fun k => col (i + 1 - w + k)
    if vals.all Option.isSome then some (agg vals.reduceOption) else none
  else none

/-- `Log_Return`: `np.log(close / close.shift(1)).fillna(0)` — the first
row's undefined return becomes `0`. -/
def logRet (pf : PriceFrame) (t : ℕ) : ℝ :=
  if t = 0 then 0 else Real.log (pf.close t / pf.close (t - 1))

/-- `Rolling_Std`: rolling sample standard deviation of log returns. -/
def rollingStdCol (e : SLEDEngine) (pf : PriceFrame) : ℕ → Option ℝ :=
  rollingR e.window sampleStd (logRet pf) pf.len

/-- Rolling minimum of `Rolling_Std` over `lookback` samples. -/
def rMinCol (e : SLEDEngine) (pf : PriceFrame) : ℕ → Option ℝ :=
  rollingO e.lookback aggMin (rollingStdCol e pf) pf.len

/-- Rolling maximum of `Rolling_Std` over `lookback` samples. -/
def rMaxCol (e : SLEDEngine) (pf : PriceFrame) : ℕ → Option ℝ :=
  rollingO e.lookback aggMax (rollingStdCol e pf) pf.len

open Classical in
/-- `Norm_Vol = np.where(denom == 0, 0, (Rolling_Std - r_min) / denom)`;
any NaN among the three inputs propagates (NaN compares unequal to 0). -/
def normVolCol (e : SLEDEngine) (pf : PriceFrame) : ℕ → Option ℝ := fun i =>
  match rollingStdCol e pf i, rMinCol e pf i, rMaxCol e pf i with
  | some sd, some mn, some mx =>
    some (if mx - mn = 0 then 0 else (sd - mn) / (mx - mn))
  | _, _, _ => none

/-- `Z_Trap = 1 - Norm_Vol`. -/
def zTrapCol (e : SLEDEngine) (pf : PriceFrame) : ℕ → Option ℝ := fun i =>
  (normVolCol e pf i).map fun v => 1 - v

open Classical in
/-- `Sigma`: rolling window entropy of the volume series when a volume
column with positive total is present, otherwise rolling window entropy of
the log-return series scaled by `1.5`. -/
def sigmaCol (e : SLEDEngine) (pf : PriceFrame) : ℕ → Option ℝ := fun i =>
  match pf.volume with
  | some v =>
    if 0 < Finset.sum (Finset.range pf.len) v then
      rollingR e.window (getEnt e.entropyBins) v pf.len i
    else
      (rollingR e.window (getEnt e.entropyBins) (logRet pf) pf.len i).map
        fun x => x * 1.5
  | none =>
    (rollingR e.window (getEnt e.entropyBins) (logRet pf) pf.len i).map
      fun x => x * 1.5

/-- `Gate = (1 - Z_Trap) * Sigma`. -/
def gateCol (e : SLEDEngine) (pf : PriceFrame) : ℕ → Option ℝ := fun i =>
  match zTrapCol e pf i, sigmaCol e pf i with
  | some z, some s => some ((1 - z) * s)
  | _, _ => none

open Classical in
/-- `Price_Loc = np.where(denom == 0, 0.5, (close - low) / denom)` over a
50-sample rolling min / max of close. -/
def priceLocCol (pf : PriceFrame) : ℕ → Option ℝ := fun i =>
  if 50 ≤ i + 1 ∧ i < pf.len then
    let lo := aggMin (winList pf.close 50 i)
    let hi := aggMax (winList pf.close 50 i)
    some (if hi - lo = 0 then 0.5 else (pf.close i - lo) / (hi - lo))
  else none

/-- `ent_thresh = Sigma.rolling(200).quantile(0.85)` (hardcoded window). -/
def entThreshCol (e : SLEDEngine) (pf : PriceFrame) : ℕ → Option ℝ :=
  rollingO 200 (quantileLinear 0.85) (sigmaCol e pf) pf.len

/-- `is_phase_0 = (Z_Trap > 0.75) & (Sigma > ent_thresh)`: a NaN in any
operand makes the comparison false. -/
def phase0 (e : SLEDEngine) (pf : PriceFrame) (i : ℕ) : Prop :=
  match zTrapCol e pf i, sigmaCol e pf i, entThreshCol e pf i with
  | some z, some s, some th => 0.75 < z ∧ th < s
  | _, _, _ => False

/-- `Price_Loc < 0.4` (false on NaN). -/
def locBuy (pf : PriceFrame) (i : ℕ) : Prop :=
  match priceLocCol pf i with
  | some p => p < 0.4
  | none => False

/-- `Price_Loc > 0.6` (false on NaN). -/
def locSell (pf : PriceFrame) (i : ℕ) : Prop :=
  match priceLocCol pf i with
  | some p => 0.6 < p
  | none => False

open Classical in
/-- `Signal_Buy = np.where(is_phase_0 & (Price_Loc < 0.4), 1, 0)`. -/
def signalBuyCol (e : SLEDEngine) (pf : PriceFrame) (i : ℕ) : ℕ :=
  if phase0 e pf i ∧ locBuy pf i then 1 else 0

open Classical in
/-- `Signal_Sell = np.where(is_phase_0 & (Price_Loc > 0.6), 1, 0)`. -/
def signalSellCol (e : SLEDEngine) (pf : PriceFrame) (i : ℕ) : ℕ :=
  if phase0 e pf i ∧ locSell pf i then 1 else 0

/-- `RiseScore_14d = Gate.fillna(0)*0.6 + Sigma.fillna(0)*0.3 -
Z_Trap.fillna(0)*0.4`. -/
def riseScoreCol (e : SLEDEngine) (pf : PriceFrame) (i : ℕ) : ℝ :=
  (gateCol e pf i).getD 0 * 0.6 + (sigmaCol e pf i).getD 0 * 0.3 -
    (zTrapCol e pf i).getD 0 * 0.4

/-- The columns of the DataFrame that `summarize` reads (`summarize` takes
any DataFrame; `SLEDEngine.calculate` below produces one). -/
structure SFrame where
  len : ℕ
  close : ℕ → Option ℝ
  ztrap : ℕ → Option ℝ
  gate : ℕ → Option ℝ
  rise : ℕ → Option ℝ
  sbuy : ℕ → ℕ
  ssell : ℕ → ℕ

/-- The summary dict returned by `SLEDEngine.summarize`: non-finite values
are kept as NaN (`none`), finite ones rounded to 4 decimals. -/
structure Snapshot where
  price : Option ℝ
  signal : String
  ztrap : Option ℝ
  gate : Option ℝ
  rise : ℝ
  bullseyeBuy : Prop
  bullseyeSell : Prop

/-- Embedding of `SLEDEngine.summarize`: reads the last row; an empty frame
returns `None`.  The bullseye markers use the unrounded gate and z values:
`(signal == BUY) and (gate >= 1.6) and (z <= 0.85)` and the SELL analogue. -/
def summarize (fr : SFrame) : Option Snapshot :=
  if fr.len = 0 then none
  else
    let L := fr.len - 1
    let sig :=
      if fr.sbuy L = 1 then buyStr
      else if fr.ssell L = 1 then sellStr
      else waitStr
    some (Snapshot.mk ((fr.close L).map round4) sig ((fr.ztrap L).map round4)
      ((fr.gate L).map round4) (round4 ((fr.rise L).getD 0))
      (sig = buyStr ∧ (∃ g ∈ fr.gate L, 1.6 ≤ g) ∧ ∃ z ∈ fr.ztrap L, z ≤ 0.85)
      (sig = sellStr ∧ (∃ g ∈ fr.gate L, 1.6 ≤ g) ∧ ∃ z ∈ fr.ztrap L, z ≤ 0.85))

/-- Embedding of `SLEDEngine.calculate` viewed through the columns that
`summarize` consumes. -/
def SLEDEngine.calculate (e : SLEDEngine) (pf : PriceFrame) : SFrame :=
  SFrame.mk pf.len
    (fun i => if i < pf.len then some (pf.close i) else none)
    (zTrapCol e pf) (gateCol e pf)
    (fun i => if i < pf.len then some (riseScoreCol e pf i) else none)
    (signalBuyCol e pf) (signalSellCol e pf)

/-- One full evaluation: `calculate` then `summarize`. -/
def SLEDEngine.evaluate (e : SLEDEngine) (pf : PriceFrame) : Option Snapshot :=
  summarize (e.calculate pf)

/-! ### Spec-version definitions

These follow the words of the spec sentences under test (not the source);
each is compared against the corresponding source-derived definition. -/

/-- All defined (non-NaN) values of the `Sigma` column, in row order. -/
def sigmaVals (e : SLEDEngine) (pf : PriceFrame) : List ℝ :=
  (List.range pf.len).filterMap (sigmaCol e pf)

/-- Spec's phase-0 threshold: the rolling 85th percentile of `Sigma` over a
200-sample window, "falling back to the full-series 85th percentile when
fewer than 200 samples of history exist". -/
def specEntThresh (e : SLEDEngine) (pf : PriceFrame) (i : ℕ) : ℝ :=
  (entThreshCol e pf i).getD (quantileLinear 0.85 (sigmaVals e pf))

/-- Spec's phase-0 predicate: `z_trap > 0.75` and `sigma` above
`specEntThresh`. -/
def specPhase0 (e : SLEDEngine) (pf : PriceFrame) (i : ℕ) : Prop :=
  match zTrapCol e pf i, sigmaCol e pf i with
  | some z, some s => 0.75 < z ∧ specEntThresh e pf i < s
  | _, _ => False

open Classical in
/-- Spec's BUY signal: phase-0 with price location below 0.4. -/
def specSignalBuy (e : SLEDEngine) (pf : PriceFrame) (i : ℕ) : ℕ :=
  if specPhase0 e pf i ∧ locBuy pf i then 1 else 0

open Classical in
/-- Spec's SELL signal: phase-0 with price location above 0.6. -/
def specSignalSell (e : SLEDEngine) (pf : PriceFrame) (i : ℕ) : ℕ :=
  if specPhase0 e pf i ∧ locSell pf i then 1 else 0

/-- Spec's backfill of a column: an undefined cell takes the nearest
subsequent defined value. -/
def specBackfill (col : ℕ → Option ℝ) (len i : ℕ) : Option ℝ :=
  match col i with
  | some v => some v
  | none => (List.range (len - i)).findSome? fun k => col (i + k)

/-- The defined gate values among the trailing 120 rows of a frame. -/
def trailingGates (fr : SFrame) : List ℝ :=
  (List.range 120).filterMap fun k =>
    if k ≤ fr.len - 1 then fr.gate (fr.len - 1 - k) else none

/-- Spec's bullseye gate condition: the final gate value lies in the top
15% of gate's trailing 120-sample distribution. -/
def specGateTop15 (fr : SFrame) : Prop :=
  match fr.gate (fr.len - 1) with
  | some g => quantileLinear 0.85 (trailingGates fr) ≤ g
  | none => False

/-! ### DataFrame with named columns (for the side-effect claim)

`SLEDEngine.calculate` assigns its metric columns into the very DataFrame
object the caller passed (pandas column assignment mutates in place) and
returns that object; the model returns the post-call state of the caller's
DataFrame.  A column assignment replaces an existing column of that name or
appends a new one at the end. -/

def closeKey : String := "Close"

def volumeKey : String := "Volume"

def logRetKey : String := "Log_Return"

def rollingStdKey : String := "Rolling_Std"

def normVolKey : String := "Norm_Vol"

def zTrapKey : String := "Z_Trap"

def sigmaKey : String := "Sigma"

def gateKey : String := "Gate"

def priceLocKey : String := "Price_Loc"

def signalBuyKey : String := "Signal_Buy"

def signalSellKey : String := "Signal_Sell"

def riseScoreKey : String := "RiseScore_14d"

abbrev DfCol : Type := List (Option ℝ)

abbrev Df : Type := List (String × DfCol)

/-- The column names of a DataFrame, in order. -/
def colNames (df : Df) : List String :=
  df.map Prod.fst

/-- `df[k] = c`: replace the column named `k`, or append it. -/
def setCol (df : Df) (k : String) (c : DfCol) : Df :=
  if df.any fun p => p.1 = k then
    df.map fun p => if p.1 = k then (k, c) else p
  else df ++ [(k, c)]

/-- Embedding of `SLEDEngine.calculate` at the DataFrame level: a missing
`Close` column raises, which the `except` clause turns into `None`; input
price frames from the history provider are NaN-free, so input cells are read
with their defined values.  The returned DataFrame is the caller's
DataFrame after the call (the Python method mutates it in place). -/
def SLEDEngine.calculateDf (e : SLEDEngine) (df : Df) : Option Df :=
  match List.lookup closeKey df with
  | none => none
  | some ccol =>
    let n := ccol.length
    let pf := PriceFrame.mk n (fun i => (ccol.getD i none).getD 0)
      ((List.lookup volumeKey df).map fun vcol => fun i =>
        (vcol.getD i none).getD 0)
    let mk : (ℕ → Option ℝ) → DfCol := fun f => (List.range n).map f
    some (setCol (setCol (setCol (setCol (setCol (setCol (setCol (setCol
      (setCol (setCol df
        logRetKey (mk fun i => some (logRet pf i)))
        rollingStdKey (mk (rollingStdCol e pf)))
        normVolKey (mk (normVolCol e pf)))
        zTrapKey (mk (zTrapCol e pf)))
        sigmaKey (mk (sigmaCol e pf)))
        gateKey (mk (gateCol e pf)))
        priceLocKey (mk (priceLocCol pf)))
        signalBuyKey (mk fun i => some ((signalBuyCol e pf i : ℕ) : ℝ)))
        signalSellKey (mk fun i => some ((signalSellCol e pf i : ℕ) : ℝ)))
        riseScoreKey (mk fun i => some (riseScoreCol e pf i)))

/-! ### Concrete inputs used by witnesses and counterexamples -/

/-- The engine as constructed at every call site:
`SLEDEngine(window=20, lookback=100, entropy_bins=10)`. -/
def engine20 : SLEDEngine :=
  SLEDEngine.mk 20 100 10

/-- A constant series: 150 rows of close 5 and volume 100. -/
def pfConst : PriceFrame :=
  PriceFrame.mk 150 (fun _ => 5) (some fun _ => 100)

/-- A one-row series (shorter than the window). -/
def pfShort : PriceFrame :=
  PriceFrame.mk 1 (fun _ => 5) none

/-- A constant series long enough for the 200-sample quantile window. -/
def pfConst219 : PriceFrame :=
  PriceFrame.mk 219 (fun _ => 5) (some fun _ => 100)

/-- Volume profile for the phase-0 analysis: constant 100, dropping to 0 on
the last ten rows. -/
def volC1 : ℕ → ℝ := fun t =>
  if t ≤ 139 then 100 else 0

/-- Price series for the phase-0 analysis: 150 rows of geometric growth
(constant log return), with the `volC1` volume column. -/
def pfC1 : PriceFrame :=
  PriceFrame.mk 150 (fun t => 2 ^ t) (some volC1)

/-- A two-column input DataFrame with one row. -/
def dfC9 : Df :=
  [(closeKey, [some 1]), (volumeKey, [some 2])]

end

/-- A lower-case signal string, for the news-filter analysis. -/
def buyLowerStr : String := "buy"

/-- Two tracker frames: one cluster, then an empty frame (the object dies),
then the same cluster again (a rebirth with a fresh id). -/
def framesC8 : List (List (List (ℚ × ℚ))) :=
  [[[(0, 0), (2, 0)]], [], [[(0, 0), (2, 0)]]]


/-! ## Helper lemmas -/

theorem le_foldl_min {xs : List ℝ} {a b : ℝ} (ha : b ≤ a)
    (hxs : ∀ x ∈ xs, b ≤ x) : b ≤ xs.foldl min a := by
  induction xs generalizing a with
  | nil => exact ha
  | cons c xs ih =>
    simp only [List.foldl_cons]
    exact ih (le_min ha (hxs c (by simp))) fun x hx => hxs x (by simp [hx])

theorem foldl_min_le_init (xs : List ℝ) (a : ℝ) : xs.foldl min a ≤ a := by
  induction xs generalizing a with
  | nil => exact le_refl a
  | cons c xs ih =>
    simp only [List.foldl_cons]
    exact (ih (min a c)).trans (min_le_left a c)

theorem foldl_min_le_mem {xs : List ℝ} {a x : ℝ} (hx : x ∈ xs) :
    xs.foldl min a ≤ x := by
  induction xs generalizing a with
  | nil => cases hx
  | cons c xs ih =>
    simp only [List.foldl_cons]
    rcases List.mem_cons.mp hx with rfl | hx2
    · exact (foldl_min_le_init xs (min a x)).trans (min_le_right a x)
    · exact ih hx2

theorem foldl_max_le {xs : List ℝ} {a b : ℝ} (ha : a ≤ b)
    (hxs : ∀ x ∈ xs, x ≤ b) : xs.foldl max a ≤ b := by
  induction xs generalizing a with
  | nil => exact ha
  | cons c xs ih =>
    simp only [List.foldl_cons]
    exact ih (max_le ha (hxs c (by simp))) fun x hx => hxs x (by simp [hx])

theorem init_le_foldl_max (xs : List ℝ) (a : ℝ) : a ≤ xs.foldl max a := by
  induction xs generalizing a with
  | nil => exact le_refl a
  | cons c xs ih =>
    simp only [List.foldl_cons]
    exact (le_max_left a c).trans (ih (max a c))

theorem mem_le_foldl_max {xs : List ℝ} {a x : ℝ} (hx : x ∈ xs) :
    x ≤ xs.foldl max a := by
  induction xs generalizing a with
  | nil => cases hx
  | cons c xs ih =>
    simp only [List.foldl_cons]
    rcases List.mem_cons.mp hx with rfl | hx2
    · exact (le_max_right a x).trans (init_le_foldl_max xs (max a x))
    · exact ih hx2

theorem aggMin_le_mem {l : List ℝ} {x : ℝ} (hx : x ∈ l) : aggMin l ≤ x := by
  cases l with
  | nil => cases hx
  | cons a xs =>
    rcases List.mem_cons.mp hx with rfl | hx2
    · exact foldl_min_le_init xs x
    · exact foldl_min_le_mem hx2

theorem mem_le_aggMax {l : List ℝ} {x : ℝ} (hx : x ∈ l) : x ≤ aggMax l := by
  cases l with
  | nil => cases hx
  | cons a xs =>
    rcases List.mem_cons.mp hx with rfl | hx2
    · exact init_le_foldl_max xs x
    · exact mem_le_foldl_max hx2

theorem aggMin_eq {l : List ℝ} {b : ℝ} (hmem : b ∈ l) (hle : ∀ x ∈ l, b ≤ x) :
    aggMin l = b := by
  cases l with
  | nil => cases hmem
  | cons a xs =>
    exact le_antisymm (aggMin_le_mem hmem)
      (le_foldl_min (hle a (by simp)) fun x hx => hle x (by simp [hx]))

theorem aggMax_eq {l : List ℝ} {b : ℝ} (hmem : b ∈ l) (hle : ∀ x ∈ l, x ≤ b) :
    aggMax l = b := by
  cases l with
  | nil => cases hmem
  | cons a xs =>
    exact le_antisymm
      (foldl_max_le (hle a (by simp)) fun x hx => hle x (by simp [hx]))
      (mem_le_aggMax hmem)

theorem aggMin_replicate {n : ℕ} (hn : n ≠ 0) (c : ℝ) :
    aggMin (List.replicate n c) = c :=
  aggMin_eq (List.mem_replicate.mpr ⟨hn, rfl⟩)
    (fun x hx => le_of_eq ((List.eq_of_mem_replicate hx).symm))

theorem aggMax_replicate {n : ℕ} (hn : n ≠ 0) (c : ℝ) :
    aggMax (List.replicate n c) = c :=
  aggMax_eq (List.mem_replicate.mpr ⟨hn, rfl⟩)
    (fun x hx => le_of_eq (List.eq_of_mem_replicate hx))

theorem listMean_replicate {n : ℕ} (hn : n ≠ 0) (c : ℝ) :
    listMean (List.replicate n c) = c := by
  have hnR : (n : ℝ) ≠ 0 := Nat.cast_ne_zero.mpr hn
  simp only [listMean, List.sum_replicate, List.length_replicate,
    nsmul_eq_mul]
  field_simp

theorem sampleStd_replicate {n : ℕ} (hn : n ≠ 0) (c : ℝ) :
    sampleStd (List.replicate n c) = 0 := by
  simp [sampleStd, List.map_replicate, listMean_replicate hn,
    List.sum_replicate, Real.sqrt_zero]

theorem reduceOption_replicate_some (n : ℕ) (c : ℝ) :
    (List.replicate n (some c)).reduceOption = List.replicate n c := by
  induction n with
  | zero => rfl
  | succ m ih => simp [List.replicate_succ, List.reduceOption_cons_of_some, ih]

theorem winList_congr {f : ℕ → ℝ} {w i : ℕ} {c : ℝ}
    (h : ∀ k < w, f (i + 1 - w + k) = c) :
    winList f w i = List.replicate w c := by
  rw [winList, List.eq_replicate]
  refine ⟨by simp, ?_⟩
  intro b hb
  rcases List.mem_map.mp hb with ⟨k, hk, rfl⟩
  exact h k (List.mem_range.mp hk)

theorem rollingR_eq {w : ℕ} {agg : List ℝ → ℝ} {f : ℕ → ℝ} {len i : ℕ}
    (hw : w ≤ i + 1) (hl : i < len) :
    rollingR w agg f len i = some (agg (winList f w i)) := by
  simp [rollingR, hw, hl]

theorem rollingR_none {w : ℕ} {agg : List ℝ → ℝ} {f : ℕ → ℝ} {len i : ℕ}
    (h : ¬(w ≤ i + 1 ∧ i < len)) : rollingR w agg f len i = none := by
  simp only [rollingR, if_neg h]

theorem rollingO_const {w : ℕ} {agg : List ℝ → ℝ} {col : ℕ → Option ℝ}
    {len i : ℕ} {c : ℝ} (hw : w ≤ i + 1) (hl : i < len)
    (h : ∀ k < w, col (i + 1 - w + k) = some c) :
    rollingO w agg col len i = some (agg (List.replicate w c)) := by
  have hvals : ((List.range w).map fun k => col (i + 1 - w + k)) =
      List.replicate w (some c) := by
    rw [List.eq_replicate]
    refine ⟨by simp, ?_⟩
    intro b hb
    rcases List.mem_map.mp hb with ⟨k, hk, rfl⟩
    exact h k (List.mem_range.mp hk)
  simp only [rollingO, if_pos (And.intro hw hl), hvals]
  rw [if_pos, reduceOption_replicate_some]
  simp [List.all_eq_true, List.mem_replicate]

theorem rollingO_none_short {w : ℕ} {agg : List ℝ → ℝ} {col : ℕ → Option ℝ}
    {len i : ℕ} (h : ¬(w ≤ i + 1 ∧ i < len)) :
    rollingO w agg col len i = none := by
  simp only [rollingO, if_neg h]

theorem filterMap_const_some {f : ℕ → Option ℝ} {n : ℕ} {c : ℝ}
    (h : ∀ k < n, f k = some c) :
    (List.range n).filterMap f = List.replicate n c := by
  induction n with
  | zero => rfl
  | succ m ih =>
    rw [List.range_succ, List.filterMap_append,
      ih (fun k hk => h k (hk.trans (Nat.lt_succ_self m))),
      List.replicate_succ']
    simp [h m (Nat.lt_succ_self m)]

theorem countP_replicate (p : ℝ → Bool) (n : ℕ) (a : ℝ) :
    (List.replicate n a).countP p = if p a then n else 0 := by
  induction n with
  | zero => simp
  | succ m ih =>
    simp only [List.replicate_succ, List.countP_cons, ih]
    split_ifs <;> omega

theorem shannonEnt_nonneg (bins : ℕ) (cnt : ℕ → ℕ) :
    0 ≤ shannonEnt bins cnt := by
  simp only [shannonEnt]
  split_ifs with h
  · exact le_refl 0
  · rw [le_neg, neg_zero]
    apply Finset.sum_nonpos
    intro k hk
    split_ifs with hck
    · have htotpos : 0 < Finset.sum (Finset.range bins) cnt :=
        Nat.pos_of_ne_zero h
      have hle : cnt k ≤ Finset.sum (Finset.range bins) cnt :=
        Finset.single_le_sum (fun j _ => Nat.zero_le (cnt j)) hk
      have hp0 : (0 : ℝ) ≤ (cnt k : ℝ) / ((Finset.sum (Finset.range bins) cnt : ℕ) : ℝ) :=
        div_nonneg (Nat.cast_nonneg _) (Nat.cast_nonneg _)
      have hp1 : (cnt k : ℝ) / ((Finset.sum (Finset.range bins) cnt : ℕ) : ℝ) ≤ 1 := by
        rw [div_le_one (by exact_mod_cast htotpos)]
        exact_mod_cast hle
      exact mul_nonpos_of_nonneg_of_nonpos hp0
        (Real.logb_nonpos (by norm_num) hp0 hp1)
    · exact le_refl 0

theorem getEnt_nonneg (bins : ℕ) (s : List ℝ) : 0 ≤ getEnt bins s := by
  simp only [getEnt]
  exact shannonEnt_nonneg bins _

theorem binIdx_lt {bins : ℕ} (hbins : bins ≠ 0) (loE hiE x : ℝ) :
    binIdx bins loE hiE x < bins :=
  lt_of_le_of_lt (min_le_right _ _)
    (Nat.sub_lt (Nat.pos_of_ne_zero hbins) one_pos)

theorem histCnt_replicate (bins : ℕ) (loE hiE : ℝ) (n : ℕ) (c : ℝ) :
    histCnt bins loE hiE (List.replicate n c) =
      fun k => if binIdx bins loE hiE c = k then n else 0 := by
  funext k
  rw [histCnt, countP_replicate]
  split_ifs with h1 h2 h3
  · rfl
  · exact absurd (of_decide_eq_true h1) h2
  · exact absurd (decide_eq_true h3) (by simp [h1])
  · rfl

theorem shannonEnt_single {bins n b0 : ℕ} (hn : n ≠ 0) (hb0 : b0 < bins) :
    shannonEnt bins (fun k => if b0 = k then n else 0) = 0 := by
  simp only [shannonEnt]
  have htot : (Finset.sum (Finset.range bins) fun k => if b0 = k then n else 0) = n := by
    rw [Finset.sum_ite_eq]
    simp [Finset.mem_range.mpr hb0]
  rw [htot, if_neg hn, neg_eq_zero]
  apply Finset.sum_eq_zero
  intro k _
  by_cases hkb : b0 = k
  · rw [if_pos hkb, if_pos hn]
    have hnR : (n : ℝ) ≠ 0 := Nat.cast_ne_zero.mpr hn
    rw [div_self hnR, Real.logb_one, mul_zero]
  · rw [if_neg hkb]
    simp

theorem getEnt_replicate {n bins : ℕ} (hn : n ≠ 0) (hbins : bins ≠ 0)
    (c : ℝ) : getEnt bins (List.replicate n c) = 0 := by
  simp only [getEnt, aggMin_replicate hn c, aggMax_replicate hn c,
    eq_self_iff_true, if_true, histCnt_replicate]
  exact shannonEnt_single hn (binIdx_lt hbins _ _ _)

theorem round4_mono {x y : ℝ} (h : x ≤ y) : round4 x ≤ round4 y := by
  unfold round4
  have h1 : round (x * 10000) ≤ round (y * 10000) := by
    rw [round_eq, round_eq]
    exact Int.floor_mono (by linarith)
  have h2 : ((round (x * 10000) : ℤ) : ℝ) ≤ ((round (y * 10000) : ℤ) : ℝ) :=
    Int.cast_le.mpr h1
  gcongr

theorem round4_zero : round4 0 = 0 := by
  simp [round4]

theorem round4_one : round4 1 = 1 := by
  have h : (1 : ℝ) * 10000 = ((10000 : ℤ) : ℝ) := by norm_num
  rw [round4, h, round_intCast]
  norm_num

theorem getD_replicate_self (n m : ℕ) (c : ℝ) :
    (List.replicate n c).getD m c = c := by
  rw [List.getD_eq_getElem?_getD, List.getElem?_replicate]
  split_ifs <;> rfl

theorem getD_replicate_of_lt {n m : ℕ} (h : m < n) (c d : ℝ) :
    (List.replicate n c).getD m d = c := by
  rw [List.getD_eq_getElem?_getD, List.getElem?_replicate, if_pos h]
  rfl

theorem quantileLinear_replicate {n : ℕ} (hn : n ≠ 0) {q : ℝ} (hq0 : 0 ≤ q)
    (hq1 : q ≤ 1) (c : ℝ) : quantileLinear q (List.replicate n c) = c := by
  simp only [quantileLinear, List.length_replicate]
  rw [if_neg hn]
  have hs : List.insertionSort (fun a b => a ≤ b) (List.replicate n c) =
      List.replicate n c :=
    List.Sorted.insertionSort_eq
      (List.pairwise_replicate.mpr (Or.inr (le_refl c)))
  rw [hs]
  have hn1 : 1 ≤ n := Nat.one_le_iff_ne_zero.mpr hn
  have hj : (⌊q * ((n : ℝ) - 1)⌋).toNat < n := by
    have hnn : (0 : ℝ) ≤ (n : ℝ) - 1 := by
      have h5 : (1 : ℝ) ≤ (n : ℝ) := by exact_mod_cast hn1
      linarith
    have h1 : q * ((n : ℝ) - 1) < (n : ℝ) := by nlinarith
    have h2 : ⌊q * ((n : ℝ) - 1)⌋ < (n : ℤ) := by
      rw [Int.floor_lt]
      push_cast
      exact h1
    omega
  rw [getD_replicate_of_lt hj, getD_replicate_self]
  ring

theorem logRet_of_constClose {pf : PriceFrame} {c : ℝ} (hc : c ≠ 0)
    (hclose : ∀ t, pf.close t = c) (t : ℕ) : logRet pf t = 0 := by
  rw [logRet]
  split_ifs with ht
  · rfl
  · rw [hclose t, hclose (t - 1), div_self hc, Real.log_one]

theorem rollingStd_of_constClose {e : SLEDEngine} {pf : PriceFrame} {c : ℝ}
    (hc : c ≠ 0) (hclose : ∀ t, pf.close t = c) {i : ℕ}
    (hw : 1 ≤ e.window) (hwi : e.window ≤ i + 1) (hil : i < pf.len) :
    rollingStdCol e pf i = some 0 := by
  rw [rollingStdCol, rollingR_eq hwi hil,
    winList_congr fun k _ => logRet_of_constClose hc hclose _,
    sampleStd_replicate (by omega)]

theorem zTrap_of_constClose {e : SLEDEngine} {pf : PriceFrame} {c : ℝ}
    (hc : c ≠ 0) (hclose : ∀ t, pf.close t = c) {i : ℕ}
    (hw : 1 ≤ e.window) (hwi : e.window ≤ i + 1)
    (hbig : e.window + e.lookback ≤ i + 2)
    (hlb : e.lookback ≤ i + 1) (hil : i < pf.len) :
    zTrapCol e pf i = some 1 := by
  have hstd : ∀ k < e.lookback,
      rollingStdCol e pf (i + 1 - e.lookback + k) = some 0 := by
    intro k hk
    exact rollingStd_of_constClose hc hclose hw (by omega) (by omega)
  have hmn : rMinCol e pf i = some (aggMin (List.replicate e.lookback 0)) :=
    rollingO_const hlb hil hstd
  have hmx : rMaxCol e pf i = some (aggMax (List.replicate e.lookback 0)) :=
    rollingO_const hlb hil hstd
  have hsd : rollingStdCol e pf i = some 0 :=
    rollingStd_of_constClose hc hclose hw (by omega) hil
  by_cases hlb0 : e.lookback = 0
  · rw [zTrapCol, normVolCol, hsd, hmn, hmx, hlb0]
    norm_num [aggMin, aggMax]
  · rw [zTrapCol, normVolCol, hsd, hmn, hmx, aggMin_replicate hlb0,
      aggMax_replicate hlb0]
    norm_num

theorem sigma_of_constVol {e : SLEDEngine} {pf : PriceFrame} {v : ℝ}
    {vf : ℕ → ℝ} (hvol : pf.volume = some vf) (hv : ∀ t, vf t = v)
    (hv2 : 0 < v) (hlen : 1 ≤ pf.len) (hb : e.entropyBins ≠ 0)
    (hw : 1 ≤ e.window) {i : ℕ} (hwi : e.window ≤ i + 1) (hil : i < pf.len) :
    sigmaCol e pf i = some 0 := by
  have hsum : 0 < Finset.sum (Finset.range pf.len) vf := by
    have h1 : Finset.sum (Finset.range pf.len) vf = (pf.len : ℝ) * v := by
      rw [Finset.sum_congr rfl fun t _ => hv t, Finset.sum_const,
        Finset.card_range, nsmul_eq_mul]
    rw [h1]
    have : (1 : ℝ) ≤ (pf.len : ℝ) := by exact_mod_cast hlen
    nlinarith
  simp only [sigmaCol, hvol]
  rw [if_pos hsum, rollingR_eq hwi hil, winList_congr fun k _ => hv _,
    getEnt_replicate (by omega) hb]

theorem priceLoc_of_constClose {pf : PriceFrame} {c : ℝ}
    (hclose : ∀ t, pf.close t = c) {i : ℕ} (h50 : 50 ≤ i + 1)
    (hil : i < pf.len) : priceLocCol pf i = some 0.5 := by
  rw [priceLocCol, if_pos (And.intro h50 hil),
    winList_congr fun k _ => hclose _, aggMin_replicate (by omega) c,
    aggMax_replicate (by omega) c]
  norm_num

theorem rollingO_none_of_none {w : ℕ} {agg : List ℝ → ℝ}
    {col : ℕ → Option ℝ} {len i : ℕ} (hw : 1 ≤ w) (hnone : col i = none) :
    rollingO w agg col len i = none := by
  simp only [rollingO]
  split_ifs with hcond hall
  · exfalso
    rw [List.all_eq_true] at hall
    have hkmem : i + 1 - w + (w - 1) = i := by omega
    have h1 : (w - 1) ∈ List.range w := List.mem_range.mpr (by omega)
    have h2 := hall _ (List.mem_map_of_mem _ h1)
    rw [hkmem, hnone] at h2
    simp at h2
  · rfl
  · rfl

/-- Claim C4: for every computed row of the metric columns, a defined gate
value decomposes exactly as `gate = (1 - z_trap) * sigma`. -/
theorem claimC4_gate_decomposition (e : SLEDEngine) (pf : PriceFrame) (i : ℕ)
    (g : ℝ) (h : gateCol e pf i = some g) :
    ∃ z s, zTrapCol e pf i = some z ∧ sigmaCol e pf i = some s ∧
      g = (1 - z) * s := by
  simp only [gateCol] at h
  rcases hz : zTrapCol e pf i with _ | z <;>
    rcases hs : sigmaCol e pf i with _ | s <;>
      rw [hz, hs] at h <;> simp at h
  exact ⟨z, s, rfl, rfl, h.symm⟩

theorem claimC4_witness :
    gateCol engine20 pfConst 118 = some 0 ∧
    ∃ z s, zTrapCol engine20 pfConst 118 = some z ∧
      sigmaCol engine20 pfConst 118 = some s ∧ (0 : ℝ) = (1 - z) * s := by
  have hz : zTrapCol engine20 pfConst 118 = some 1 :=
    zTrap_of_constClose (c := 5) (by norm_num) (fun t => rfl) (by decide)
      (by decide) (by decide) (by decide) (by decide)
  have hs : sigmaCol engine20 pfConst 118 = some 0 :=
    sigma_of_constVol (v := 100) rfl (fun t => rfl) (by norm_num) (by decide)
      (by decide) (by decide) (by decide) (by decide)
  have hg : gateCol engine20 pfConst 118 = some 0 := by
    simp only [gateCol, hz, hs]
    norm_num
  exact ⟨hg, claimC4_gate_decomposition engine20 pfConst 118 0 hg⟩

/-- Claim C5: a well-formed nonempty series shorter than the window
evaluates without failure to a WAIT signal with a neutral metric set (NaN
z-trap and gate, zero rise score, no bullseye flags). -/
theorem claimC5_short_series (e : SLEDEngine) (pf : PriceFrame)
    (h1 : 1 ≤ pf.len) (h2 : pf.len < e.window) :
    ∃ snap, e.evaluate pf = some snap ∧ snap.signal = waitStr ∧
      snap.ztrap = none ∧ snap.gate = none ∧ snap.rise = 0 ∧
      ¬ snap.bullseyeBuy ∧ ¬ snap.bullseyeSell := by
  have hL0 : pf.len ≠ 0 := by omega
  have hstd : rollingStdCol e pf (pf.len - 1) = none := by
    apply rollingR_none
    omega
  have hz : zTrapCol e pf (pf.len - 1) = none := by
    simp [zTrapCol, normVolCol, hstd]
  have hsigAll : ∀ j, sigmaCol e pf j = none := by
    intro j
    have hr : rollingR e.window (getEnt e.entropyBins) (logRet pf) pf.len j =
        none := by
      apply rollingR_none
      omega
    rcases hv : pf.volume with _ | vf
    · simp only [sigmaCol, hv, hr, Option.map_none']
    · simp only [sigmaCol, hv]
      split_ifs
      · apply rollingR_none
        omega
      · rw [hr, Option.map_none']
  have hgate : gateCol e pf (pf.len - 1) = none := by
    simp only [gateCol, hz]
  have hphase : ¬ phase0 e pf (pf.len - 1) := by
    rw [phase0, hz]
    exact fun h => h
  have hbuy : signalBuyCol e pf (pf.len - 1) = 0 := by
    rw [signalBuyCol, if_neg]
    intro hcontra
    exact hphase hcontra.1
  have hsell : signalSellCol e pf (pf.len - 1) = 0 := by
    rw [signalSellCol, if_neg]
    intro hcontra
    exact hphase hcontra.1
  have hrise : riseScoreCol e pf (pf.len - 1) = 0 := by
    rw [riseScoreCol, hgate, hz, hsigAll]
    norm_num
  simp only [SLEDEngine.evaluate, SLEDEngine.calculate, summarize]
  rw [if_neg hL0]
  refine ⟨_, rfl, ?_, ?_, ?_, ?_, ?_, ?_⟩
  · simp [hbuy, hsell]
  · simp [hz]
  · simp [hgate]
  · simp only [if_pos (by omega : pf.len - 1 < pf.len), hrise,
      Option.getD_some]
    exact round4_zero
  · intro hcontra
    have := hcontra.1
    simp [hbuy, hsell] at this
    exact absurd this (by decide)
  · intro hcontra
    have := hcontra.1
    simp [hbuy, hsell] at this
    exact absurd this (by decide)

theorem claimC5_witness :
    ∃ snap, SLEDEngine.evaluate engine20 pfShort = some snap ∧
      snap.signal = waitStr ∧ snap.ztrap = none ∧ snap.gate = none ∧
      snap.rise = 0 ∧ ¬ snap.bullseyeBuy ∧ ¬ snap.bullseyeSell :=
  claimC5_short_series engine20 pfShort (by decide) (by decide)

/-- Claim C10 (amended): the news filter returns either the upper-cased
normalisation of its input signal or WAIT; an input normalising to WAIT
always yields WAIT, so the filter can cancel but never create a signal. -/
theorem claimC10_news_filter (s : Option String) (items : List NewsItem) :
    ((apply_news_filter s items).1 = normSignal s ∨
      (apply_news_filter s items).1 = waitStr) ∧
    (normSignal s = waitStr → (apply_news_filter s items).1 = waitStr) := by
  simp only [apply_news_filter, normSignal]
  split_ifs <;> simp_all

theorem claimC10_witness :
    ((apply_news_filter (some buyLowerStr) []).1 =
        normSignal (some buyLowerStr) ∨
      (apply_news_filter (some buyLowerStr) []).1 = waitStr) ∧
    (normSignal (some buyLowerStr) = waitStr →
      (apply_news_filter (some buyLowerStr) []).1 = waitStr) :=
  claimC10_news_filter (some buyLowerStr) []

/-- Claim C10, as stated, fails: a lower-case BUY input with no news comes
back upper-cased, which is neither the input signal unchanged nor WAIT. -/
theorem claimC10_counterexample :
    (apply_news_filter (some buyLowerStr) []).1 = buyStr ∧
    buyStr ≠ buyLowerStr ∧ buyStr ≠ waitStr := by
  refine ⟨?_, by decide, by decide⟩
  decide

theorem sigma_none_short (e : SLEDEngine) (pf : PriceFrame)
    (i : ℕ) (h : i + 1 < e.window) : sigmaCol e pf i = none := by
  have hr : rollingR e.window (getEnt e.entropyBins) (logRet pf) pf.len i =
      none := by
    apply rollingR_none
    omega
  rcases hv : pf.volume with _ | vf
  · simp only [sigmaCol, hv, hr, Option.map_none']
  · simp only [sigmaCol, hv]
    split_ifs
    · apply rollingR_none
      omega
    · rw [hr, Option.map_none']

/-- Claim C6 (amended): a sample whose rolling window has too little
history has an undefined (NaN) `Sigma` value, and it stays undefined in the
computed column — no backfill from later samples is applied. -/
theorem claimC6_sigma_stays_undefined (e : SLEDEngine) (pf : PriceFrame)
    (i : ℕ) (h : i + 1 < e.window) : sigmaCol e pf i = none :=
  sigma_none_short e pf i h

theorem claimC6_witness : sigmaCol engine20 pfConst 5 = none :=
  claimC6_sigma_stays_undefined engine20 pfConst 5 (by decide)

/-- Claim C6 as stated fails: on the constant 150-row series the first
`Sigma` cell is undefined, a later valid value (0 at row 19) exists, yet
the computed column keeps the cell undefined instead of backfilling it. -/
theorem claimC6_counterexample :
    sigmaCol engine20 pfConst 0 = none ∧
    specBackfill (sigmaCol engine20 pfConst) pfConst.len 0 = some 0 ∧
    sigmaCol engine20 pfConst 0 ≠
      specBackfill (sigmaCol engine20 pfConst) pfConst.len 0 := by
  have hnone : ∀ j : ℕ, j < 19 → sigmaCol engine20 pfConst j = none := by
    intro j hj
    refine sigma_none_short engine20 pfConst j ?_
    have hw : engine20.window = 20 := rfl
    omega
  have h19 : sigmaCol engine20 pfConst 19 = some 0 :=
    sigma_of_constVol (v := 100) rfl (fun t => rfl) (by norm_num) (by decide)
      (by decide) (by decide) (by decide) (by decide)
  have h0 : sigmaCol engine20 pfConst 0 = none := hnone 0 (by norm_num)
  have hback : specBackfill (sigmaCol engine20 pfConst) pfConst.len 0 =
      some 0 := by
    rw [specBackfill, h0]
    have hsplit : List.range (pfConst.len - 0) =
        List.range 19 ++ (List.range 131).map (19 + ·) := by
      have : pfConst.len - 0 = 19 + 131 := by decide
      rw [this, List.range_add]
    rw [hsplit, List.findSome?_append]
    have hpart1 : (List.range 19).findSome?
        (fun k => sigmaCol engine20 pfConst (0 + k)) = none := by
      rw [List.findSome?_eq_none_iff]
      intro x hx
      rw [List.mem_range] at hx
      rw [Nat.zero_add]
      exact hnone x hx
    have hpart2 : ((List.range 131).map (19 + ·)).findSome?
        (fun k => sigmaCol engine20 pfConst (0 + k)) = some 0 := by
      rw [List.findSome?_map, List.range_succ_eq_map, List.findSome?_cons_of_isSome]
      · show sigmaCol engine20 pfConst (0 + (19 + 0)) = some 0
        rw [show (0 + (19 + 0) : ℕ) = 19 from rfl]
        exact h19
      · show (sigmaCol engine20 pfConst (0 + (19 + 0))).isSome = true
        rw [show (0 + (19 + 0) : ℕ) = 19 from rfl, h19]
        rfl
    rw [hpart1, hpart2]
    rfl
  refine ⟨h0, hback, ?_⟩
  rw [h0, hback]
  simp

theorem lookup_map_setCol {t : Df} {k k2 : String} {c : DfCol} (h : k2 ≠ k) :
    (t.map fun p => if p.1 = k then (k, c) else p).lookup k2 = t.lookup k2 := by
  induction t with
  | nil => rfl
  | cons p t ih =>
    obtain ⟨pk, pv⟩ := p
    rw [List.map_cons]
    have hbeq : (k2 == k) = false := by
      simp [h]
    by_cases hpk : pk = k
    · subst hpk
      rw [if_pos rfl, List.lookup_cons, List.lookup_cons, hbeq]
      exact ih
    · rw [if_neg hpk, List.lookup_cons, List.lookup_cons]
      rcases hb2 : (k2 == pk) with _ | _
      · exact ih
      · rfl

theorem lookup_setCol_ne {df : Df} {k k2 : String} {c : DfCol} (h : k2 ≠ k) :
    (setCol df k c).lookup k2 = df.lookup k2 := by
  rw [setCol]
  split_ifs with hany
  · exact lookup_map_setCol h
  · rw [List.lookup_append]
    have h1 : ([(k, c)] : Df).lookup k2 = none := by
      rw [List.lookup_cons]
      have hbeq : (k2 == k) = false := by
        simp [h]
      rw [hbeq]
      rfl
    rw [h1]
    cases df.lookup k2 <;> rfl

/-- Claim C9 (amended): `calculate` preserves the values of the caller's
original `Close` and `Volume` columns, but it does mutate the caller's
DataFrame, appending the computed metric columns in place and returning
that same DataFrame. -/
theorem claimC9_preserves_inputs (e : SLEDEngine) (df r : Df)
    (h : e.calculateDf df = some r) :
    r.lookup closeKey = df.lookup closeKey ∧
    r.lookup volumeKey = df.lookup volumeKey := by
  rw [SLEDEngine.calculateDf] at h
  rcases hc : List.lookup closeKey df with _ | ccol
  · rw [hc] at h
    cases h
  · rw [hc] at h
    simp only [Option.some.injEq] at h
    subst h
    constructor
    · rw [lookup_setCol_ne (show closeKey ≠ riseScoreKey by decide),
        lookup_setCol_ne (show closeKey ≠ signalSellKey by decide),
        lookup_setCol_ne (show closeKey ≠ signalBuyKey by decide),
        lookup_setCol_ne (show closeKey ≠ priceLocKey by decide),
        lookup_setCol_ne (show closeKey ≠ gateKey by decide),
        lookup_setCol_ne (show closeKey ≠ sigmaKey by decide),
        lookup_setCol_ne (show closeKey ≠ zTrapKey by decide),
        lookup_setCol_ne (show closeKey ≠ normVolKey by decide),
        lookup_setCol_ne (show closeKey ≠ rollingStdKey by decide),
        lookup_setCol_ne (show closeKey ≠ logRetKey by decide)]
      exact hc
    · rw [lookup_setCol_ne (show volumeKey ≠ riseScoreKey by decide),
        lookup_setCol_ne (show volumeKey ≠ signalSellKey by decide),
        lookup_setCol_ne (show volumeKey ≠ signalBuyKey by decide),
        lookup_setCol_ne (show volumeKey ≠ priceLocKey by decide),
        lookup_setCol_ne (show volumeKey ≠ gateKey by decide),
        lookup_setCol_ne (show volumeKey ≠ sigmaKey by decide),
        lookup_setCol_ne (show volumeKey ≠ zTrapKey by decide),
        lookup_setCol_ne (show volumeKey ≠ normVolKey by decide),
        lookup_setCol_ne (show volumeKey ≠ rollingStdKey by decide),
        lookup_setCol_ne (show volumeKey ≠ logRetKey by decide)]

/-- Claim C9 as stated fails: `calculate` mutates the caller's DataFrame in
place — after the call the caller's two-column frame carries ten additional
metric columns, so it does not hold the same columns as before. -/
theorem claimC9_counterexample :
    (SLEDEngine.calculateDf engine20 dfC9).map colNames =
      some [closeKey, volumeKey, logRetKey, rollingStdKey, normVolKey,
        zTrapKey, sigmaKey, gateKey, priceLocKey, signalBuyKey,
        signalSellKey, riseScoreKey] ∧
    colNames dfC9 = [closeKey, volumeKey] ∧
    (SLEDEngine.calculateDf engine20 dfC9).map colNames ≠
      some (colNames dfC9) := by
  have h1 : (SLEDEngine.calculateDf engine20 dfC9).map colNames =
      some [closeKey, volumeKey, logRetKey, rollingStdKey, normVolKey,
        zTrapKey, sigmaKey, gateKey, priceLocKey, signalBuyKey,
        signalSellKey, riseScoreKey] := rfl
  have h2 : colNames dfC9 = [closeKey, volumeKey] := rfl
  refine ⟨h1, h2, ?_⟩
  rw [h1, h2]
  simp only [Option.some.injEq, ne_eq]
  decide

theorem claimC9_witness :
    ∃ r, SLEDEngine.calculateDf engine20 dfC9 = some r ∧
      r.lookup closeKey = dfC9.lookup closeKey ∧
      r.lookup volumeKey = dfC9.lookup volumeKey := by
  refine ⟨_, rfl, ?_⟩
  exact claimC9_preserves_inputs engine20 dfC9 _ rfl

theorem nbrs_subset_range (pts : List (ℚ × ℚ)) (eps : ℚ) (i : ℕ) :
    nbrs pts eps i ⊆ Finset.range pts.length :=
  Finset.filter_subset _ _

theorem subset_growOnce (pts : List (ℚ × ℚ)) (eps : ℚ) (ms : ℕ)
    (c : Finset ℕ) : c ⊆ growOnce pts eps ms c :=
  Finset.subset_union_left

theorem growOnce_subset_range {pts : List (ℚ × ℚ)} {eps : ℚ} {ms : ℕ}
    {c : Finset ℕ} (h : c ⊆ Finset.range pts.length) :
    growOnce pts eps ms c ⊆ Finset.range pts.length := by
  rw [growOnce]
  apply Finset.union_subset h
  intro x hx
  rw [Finset.mem_biUnion] at hx
  obtain ⟨idx, _, hx2⟩ := hx
  split_ifs at hx2 with hcore
  · exact nbrs_subset_range pts eps idx hx2
  · exact absurd hx2 (Finset.not_mem_empty x)

theorem subset_growIter (pts : List (ℚ × ℚ)) (eps : ℚ) (ms : ℕ) :
    ∀ fuel c, c ⊆ growIter pts eps ms fuel c := by
  intro fuel
  induction fuel with
  | zero => exact fun c => subset_rfl
  | succ f ih =>
    intro c
    simp only [growIter]
    split_ifs with heq
    · exact subset_rfl
    · exact (subset_growOnce pts eps ms c).trans (ih (growOnce pts eps ms c))

theorem growIter_fixpoint (pts : List (ℚ × ℚ)) (eps : ℚ) (ms : ℕ) :
    ∀ fuel c, c ⊆ Finset.range pts.length →
      pts.length ≤ fuel + c.card →
      growOnce pts eps ms (growIter pts eps ms fuel c) =
        growIter pts eps ms fuel c := by
  intro fuel
  induction fuel with
  | zero =>
    intro c hsub hcard
    have hc : c = Finset.range pts.length :=
      Finset.eq_of_subset_of_card_le hsub (by simpa using hcard)
    simp only [growIter]
    subst hc
    exact subset_antisymm (growOnce_subset_range subset_rfl)
      (subset_growOnce pts eps ms _)
  | succ f ih =>
    intro c hsub hcard
    simp only [growIter]
    split_ifs with heq
    · exact heq
    · apply ih
      · exact growOnce_subset_range hsub
      · have hss : c ⊂ growOnce pts eps ms c :=
          Finset.ssubset_iff_subset_ne.mpr
            ⟨subset_growOnce pts eps ms c, fun h => heq h.symm⟩
        have hlt : c.card < (growOnce pts eps ms c).card :=
          Finset.card_lt_card hss
        omega

theorem clusterFold_invariant (pts : List (ℚ × ℚ)) (eps : ℚ) (ms : ℕ) :
    ∀ C ∈ (clusterFold pts eps ms).2,
      (∃ s, ms ≤ (nbrs pts eps s).card ∧
        C = growIter pts eps ms pts.length (nbrs pts eps s)) ∧
      C ⊆ (clusterFold pts eps ms).1 := by
  rw [clusterFold]
  suffices h : ∀ (l : List ℕ) (acc : Finset ℕ × List (Finset ℕ)),
      (∀ C ∈ acc.2,
        (∃ s, ms ≤ (nbrs pts eps s).card ∧
          C = growIter pts eps ms pts.length (nbrs pts eps s)) ∧
        C ⊆ acc.1) →
      ∀ C ∈ (l.foldl (clusterStep pts eps ms) acc).2,
        (∃ s, ms ≤ (nbrs pts eps s).card ∧
          C = growIter pts eps ms pts.length (nbrs pts eps s)) ∧
        C ⊆ (l.foldl (clusterStep pts eps ms) acc).1 by
    exact h _ _ (by simp)
  intro l
  induction l with
  | nil => exact fun acc hacc => hacc
  | cons i t ih =>
    intro acc hacc
    rw [List.foldl_cons]
    apply ih
    simp only [clusterStep]
    split_ifs with hused hcard
    · exact hacc
    · exact hacc
    · intro C hC
      rw [List.mem_append] at hC
      rcases hC with hold | hnew
      · obtain ⟨hex, hsub⟩ := hacc C hold
        exact ⟨hex, hsub.trans Finset.subset_union_left⟩
      · rw [List.mem_singleton] at hnew
        subst hnew
        exact ⟨⟨i, by omega, rfl⟩, Finset.subset_union_right⟩

/-- Claim C7 (amended): once a seed has at least min_samples neighbours
within eps, the emitted cluster contains the seed's full neighbourhood and
is closed under absorbing the neighbourhood of every member that itself has
at least min_samples neighbours (the source guards expansion by this core
condition, so points adjacent only to low-density border members are not
absorbed); all points of the emitted cluster are marked used. -/
theorem claimC7_cluster_closure (pts : List (ℚ × ℚ)) (eps : ℚ) (ms : ℕ)
    (C : Finset ℕ) (hC : C ∈ cluster_reaction_points pts eps ms) :
    (∃ s, ms ≤ (nbrs pts eps s).card ∧ nbrs pts eps s ⊆ C) ∧
    (∀ i ∈ C, ms ≤ (nbrs pts eps i).card → nbrs pts eps i ⊆ C) ∧
    C ⊆ (clusterFold pts eps ms).1 := by
  have h := clusterFold_invariant pts eps ms C hC
  obtain ⟨⟨s, hs, hCeq⟩, hsub⟩ := h
  subst hCeq
  refine ⟨⟨s, hs, subset_growIter pts eps ms pts.length (nbrs pts eps s)⟩,
    ?_, hsub⟩
  intro i hi hcore
  have hfix := growIter_fixpoint pts eps ms pts.length (nbrs pts eps s)
    (nbrs_subset_range pts eps s) (by omega)
  intro x hx
  rw [← hfix, growOnce]
  apply Finset.mem_union_right
  rw [Finset.mem_biUnion]
  refine ⟨i, hi, ?_⟩
  rw [if_pos hcore]
  exact hx

theorem claimC7_witness :
    ({0, 1, 2, 3, 4} : Finset ℕ) ∈ cluster_reaction_points cexPts 2 4 ∧
    ((∃ s, 4 ≤ (nbrs cexPts 2 s).card ∧
        nbrs cexPts 2 s ⊆ ({0, 1, 2, 3, 4} : Finset ℕ)) ∧
      (∀ i ∈ ({0, 1, 2, 3, 4} : Finset ℕ),
        4 ≤ (nbrs cexPts 2 i).card →
          nbrs cexPts 2 i ⊆ ({0, 1, 2, 3, 4} : Finset ℕ)) ∧
      ({0, 1, 2, 3, 4} : Finset ℕ) ⊆ (clusterFold cexPts 2 4).1) := by
  have hmem : ({0, 1, 2, 3, 4} : Finset ℕ) ∈
      cluster_reaction_points cexPts 2 4 :=
    of_decide_eq_true (by with_unfolding_all rfl)
  exact ⟨hmem, claimC7_cluster_closure cexPts 2 4 _ hmem⟩

/-- Claim C7 as stated fails: with six collinear points, eps 2 and
min_samples 4, point 5 lies within eps of emitted-cluster member 4, yet it
is not absorbed (member 4 has fewer than min_samples neighbours, and the
source only expands from members that meet the density floor). -/
theorem claimC7_counterexample :
    cluster_reaction_points cexPts 2 4 = [{0, 1, 2, 3, 4}] ∧
    4 ∈ ({0, 1, 2, 3, 4} : Finset ℕ) ∧
    5 ∈ nbrs cexPts 2 4 ∧
    5 ∉ ({0, 1, 2, 3, 4} : Finset ℕ) := by
  refine ⟨by with_unfolding_all rfl, by decide, ?_, by decide⟩
  exact of_decide_eq_true (by with_unfolding_all rfl)

theorem matchFold_aux (d : ℚ) (cents : List (ℚ × ℚ)) :
    ∀ (l : List ProtoObject) (acc : Finset ℕ × List (ProtoObject × ℕ)),
      ∀ p ∈ (l.foldl (fun acc o =>
          match bestMatch cents acc.1 o.centroid with
          | none => acc
          | some j =>
            if sqDist (cents.getD j (0, 0)) o.centroid ≤ d ^ 2 then
              (insert j acc.1, acc.2 ++ [(o, j)])
            else acc) acc).2,
        p ∈ acc.2 ∨ p.1 ∈ l := by
  intro l
  induction l with
  | nil => exact fun acc p hp => Or.inl hp
  | cons o t ih =>
    intro acc p hp
    rw [List.foldl_cons] at hp
    rcases ih _ p hp with hacc | hmem
    · beta_reduce at hacc
      rcases hb : bestMatch cents acc.1 o.centroid with _ | j
      · simp only [hb] at hacc
        exact Or.inl hacc
      · simp only [hb] at hacc
        split_ifs at hacc with hd
        · simp only at hacc
          rw [List.mem_append] at hacc
          rcases hacc with h1 | h2
          · exact Or.inl h1
          · rw [List.mem_singleton] at h2
            subst h2
            exact Or.inr (List.mem_cons_self o t)
        · exact Or.inl hacc
    · exact Or.inr (List.mem_cons_of_mem o hmem)

theorem matchFold_mem (d : ℚ) (cents : List (ℚ × ℚ))
    (reg : List ProtoObject) :
    ∀ p ∈ (matchFold d cents reg).2, p.1 ∈ reg := by
  intro p hp
  rcases matchFold_aux d cents reg (∅, []) p hp with h | h
  · simp at h
  · exact h

theorem advance_frame_ids (d : ℚ) (f : List (List (ℚ × ℚ)))
    (st : TrackerState) :
    ∀ o ∈ (advance_frame d f st).registry,
      o.id ∈ regIds st ∨
        st.nextId ≤ o.id ∧ o.id < (advance_frame d f st).nextId := by
  intro o ho
  simp only [advance_frame] at ho ⊢
  rw [List.mem_append] at ho
  rcases ho with hs | hb
  · rcases List.mem_map.mp hs with ⟨oj, hoj, rfl⟩
    left
    show oj.1.id ∈ List.map ProtoObject.id st.registry
    exact List.mem_map_of_mem ProtoObject.id
      (matchFold_mem d (f.map centroidOf) st.registry oj hoj)
  · rcases List.mem_map.mp hb with ⟨kj, hkj, rfl⟩
    right
    have h3 := List.mem_enum_iff_getElem?.mp hkj
    have hlt : kj.1 < ((List.range f.length).filter fun j =>
        j ∉ (matchFold d (f.map centroidOf) st.registry).1).length := by
      rcases List.getElem?_eq_some_iff.mp h3 with ⟨hh, _⟩
      exact hh
    constructor
    · exact Nat.le_add_right _ _
    · simp only [List.length_map, List.enum_length]
      omega

theorem advance_frame_nextId_le (d : ℚ) (f : List (List (ℚ × ℚ)))
    (st : TrackerState) : st.nextId ≤ (advance_frame d f st).nextId := by
  simp only [advance_frame]
  omega

theorem advance_frame_inv (d : ℚ) (f : List (List (ℚ × ℚ)))
    (st : TrackerState) (hInv : ∀ o ∈ st.registry, o.id < st.nextId) :
    ∀ o ∈ (advance_frame d f st).registry,
      o.id < (advance_frame d f st).nextId := by
  intro o ho
  rcases advance_frame_ids d f st o ho with h | h
  · rcases List.mem_map.mp h with ⟨o2, ho2, heq⟩
    have h1 := hInv o2 ho2
    have h2 := advance_frame_nextId_le d f st
    omega
  · exact h.2

theorem runFrames_no_resurrection (d : ℚ) :
    ∀ (frames : List (List (List (ℚ × ℚ)))) (st : TrackerState),
      (∀ o ∈ st.registry, o.id < st.nextId) →
      ∀ i, i ∉ regIds st → i < st.nextId →
        i ∉ regIds (runFrames d st frames) := by
  intro frames
  induction frames with
  | nil => exact fun st _ i hni _ => hni
  | cons f fs ih =>
    intro st hInv i hni hlt
    rw [runFrames]
    apply ih
    · exact advance_frame_inv d f st hInv
    · intro hmem
      rcases List.mem_map.mp hmem with ⟨o, ho, hoid⟩
      rcases advance_frame_ids d f st o ho with h | h
      · rw [hoid] at h
        exact hni h
      · omega
    · exact lt_of_lt_of_le hlt (advance_frame_nextId_le d f st)

/-- Claim C8 (spec-modelled tracker): a retired object id never reappears
in the registry on any later frame, and every new birth receives an id
strictly greater than any id issued so far. -/
theorem claimC8_tracker_lifecycle (d : ℚ) (st : TrackerState)
    (hInv : ∀ o ∈ st.registry, o.id < st.nextId) :
    (∀ f o, o ∈ (advance_frame d f st).registry → o.id ∉ regIds st →
      ∀ o2 ∈ st.registry, o2.id < o.id) ∧
    (∀ i frames, i ∉ regIds st → i < st.nextId →
      i ∉ regIds (runFrames d st frames)) := by
  constructor
  · intro f o ho hnew o2 ho2
    rcases advance_frame_ids d f st o ho with h | h
    · exact absurd h hnew
    · exact lt_of_lt_of_le (hInv o2 ho2) h.1
  · intro i frames hni hlt
    exact runFrames_no_resurrection d frames st hInv i hni hlt

theorem claimC8_witness :
    0 ∉ regIds (runFrames 1 (TrackerState.mk [] 1) framesC8) :=
  (claimC8_tracker_lifecycle 1 (TrackerState.mk [] 1) (by simp)).2 0 framesC8
    (by simp [regIds]) (by norm_num)


/-! ## Boundedness of the computed metrics (claim C3) -/

theorem rollingO_window_facts {w : ℕ} {agg : List ℝ → ℝ} {col : ℕ → Option ℝ}
    {len i : ℕ} {y : ℝ} (hw : 1 ≤ w)
    (h : rollingO w agg col len i = some y) :
    ∃ l : List ℝ, y = agg l ∧ ∀ x, col i = some x → x ∈ l := by
  simp only [rollingO] at h
  split_ifs at h with hcond hall
  all_goals try exact Option.noConfusion h
  rw [Option.some.injEq] at h
  refine ⟨_, h.symm, ?_⟩
  intro x hx
  rw [List.reduceOption_mem_iff]
  refine List.mem_map.mpr ⟨w - 1, List.mem_range.mpr (by omega), ?_⟩
  show col (i + 1 - w + (w - 1)) = some x
  rw [show i + 1 - w + (w - 1) = i by omega, hx]

theorem rollingO_zero_window {agg : List ℝ → ℝ} {col : ℕ → Option ℝ}
    {len i : ℕ} {y : ℝ} (h : rollingO 0 agg col len i = some y) :
    y = agg [] := by
  simp only [rollingO] at h
  split_ifs at h with hcond hall
  all_goals try exact Option.noConfusion h
  simp only [List.range_zero, List.map_nil, List.reduceOption_nil,
    Option.some.injEq] at h
  exact h.symm

theorem rollingR_some {w : ℕ} {agg : List ℝ → ℝ} {f : ℕ → ℝ} {len i : ℕ}
    {y : ℝ} (h : rollingR w agg f len i = some y) :
    y = agg (winList f w i) := by
  simp only [rollingR] at h
  split_ifs at h with hc
  all_goals try exact Option.noConfusion h
  exact (Option.some.inj h).symm

theorem normVol_cases {e : SLEDEngine} {pf : PriceFrame} {i : ℕ} {v : ℝ}
    (h : normVolCol e pf i = some v) :
    ∃ sd mn mx, rollingStdCol e pf i = some sd ∧ rMinCol e pf i = some mn ∧
      rMaxCol e pf i = some mx ∧
      ((mx - mn = 0 ∧ v = 0) ∨ (mx - mn ≠ 0 ∧ v = (sd - mn) / (mx - mn))) := by
  simp only [normVolCol] at h
  rcases hsd : rollingStdCol e pf i with _ | sd <;>
    rcases hmn : rMinCol e pf i with _ | mn <;>
      rcases hmx : rMaxCol e pf i with _ | mx <;>
        simp only [hsd, hmn, hmx, Option.some.injEq] at h
  all_goals try exact Option.noConfusion h
  refine ⟨sd, mn, mx, rfl, rfl, rfl, ?_⟩
  split_ifs at h with hden
  · exact Or.inl ⟨hden, h.symm⟩
  · exact Or.inr ⟨hden, h.symm⟩

theorem normVol_mem_unit {e : SLEDEngine} {pf : PriceFrame} {i : ℕ} {v : ℝ}
    (h : normVolCol e pf i = some v) : 0 ≤ v ∧ v ≤ 1 := by
  obtain ⟨sd, mn, mx, hsd, hmn, hmx, hcase⟩ := normVol_cases h
  rcases hcase with ⟨_, rfl⟩ | ⟨hden, rfl⟩
  · norm_num
  · by_cases hlb : 1 ≤ e.lookback
    · rw [rMinCol] at hmn
      rw [rMaxCol] at hmx
      obtain ⟨l1, hl1, hmem1⟩ := rollingO_window_facts hlb hmn
      obtain ⟨l2, hl2, hmem2⟩ := rollingO_window_facts hlb hmx
      have h1 : mn ≤ sd := by
        rw [hl1]
        exact aggMin_le_mem (hmem1 sd hsd)
      have h2 : sd ≤ mx := by
        rw [hl2]
        exact mem_le_aggMax (hmem2 sd hsd)
      have hpos : 0 < mx - mn := lt_of_le_of_ne (by linarith) (Ne.symm hden)
      constructor
      · exact div_nonneg (by linarith) hpos.le
      · rw [div_le_one hpos]
        linarith
    · exfalso
      have hlb0 : e.lookback = 0 := by omega
      rw [rMinCol, hlb0] at hmn
      rw [rMaxCol, hlb0] at hmx
      have hmn0 : mn = aggMin [] := rollingO_zero_window hmn
      have hmx0 : mx = aggMax [] := rollingO_zero_window hmx
      apply hden
      rw [hmn0, hmx0, show aggMin [] = 0 from rfl, show aggMax [] = 0 from rfl]
      ring

theorem zTrap_mem_unit {e : SLEDEngine} {pf : PriceFrame} {i : ℕ} {z : ℝ}
    (h : zTrapCol e pf i = some z) : 0 ≤ z ∧ z ≤ 1 := by
  simp only [zTrapCol] at h
  rcases hnv : normVolCol e pf i with _ | v <;>
    simp only [hnv, Option.map_none', Option.map_some', Option.some.injEq] at h
  all_goals try exact Option.noConfusion h
  obtain ⟨hb0, hb1⟩ := normVol_mem_unit hnv
  rw [← h]
  constructor <;> linarith

theorem sigmaAux_nonneg {e : SLEDEngine} {pf : PriceFrame} {i : ℕ} {s : ℝ}
    (h : (rollingR e.window (getEnt e.entropyBins) (logRet pf) pf.len i).map
      (fun x => x * 1.5) = some s) : 0 ≤ s := by
  rcases hr : rollingR e.window (getEnt e.entropyBins) (logRet pf) pf.len i
      with _ | x <;>
    simp only [hr, Option.map_none', Option.map_some', Option.some.injEq] at h
  all_goals try exact Option.noConfusion h
  have hx : x = getEnt e.entropyBins (winList (logRet pf) e.window i) :=
    rollingR_some hr
  have hx0 : 0 ≤ x := by
    rw [hx]
    exact getEnt_nonneg _ _
  rw [← h]
  linarith

theorem sigma_nonneg {e : SLEDEngine} {pf : PriceFrame} {i : ℕ} {s : ℝ}
    (h : sigmaCol e pf i = some s) : 0 ≤ s := by
  simp only [sigmaCol] at h
  rcases hv : pf.volume with _ | vf <;> simp only [hv] at h
  · exact sigmaAux_nonneg h
  · split_ifs at h with hsum
    · have hx : s = getEnt e.entropyBins (winList vf e.window i) :=
        rollingR_some h
      rw [hx]
      exact getEnt_nonneg _ _
    · exact sigmaAux_nonneg h

theorem gate_nonneg {e : SLEDEngine} {pf : PriceFrame} {i : ℕ} {g : ℝ}
    (h : gateCol e pf i = some g) : 0 ≤ g := by
  simp only [gateCol] at h
  rcases hz : zTrapCol e pf i with _ | z <;>
    rcases hs : sigmaCol e pf i with _ | s <;>
      simp only [hz, hs, Option.some.injEq] at h
  all_goals try exact Option.noConfusion h
  obtain ⟨_, hz1⟩ := zTrap_mem_unit hz
  have hs0 := sigma_nonneg hs
  rw [← h]
  exact mul_nonneg (by linarith) hs0

theorem priceLoc_mem_unit {pf : PriceFrame} {i : ℕ} {p : ℝ}
    (h : priceLocCol pf i = some p) : 0 ≤ p ∧ p ≤ 1 := by
  simp only [priceLocCol] at h
  split_ifs at h with hcond hden
  all_goals try exact Option.noConfusion h
  all_goals rw [Option.some.injEq] at h
  all_goals rw [← h]
  · norm_num
  · obtain ⟨h50, hil⟩ := hcond
    have hmem : pf.close i ∈ winList pf.close 50 i := by
      rw [winList]
      refine List.mem_map.mpr ⟨49, List.mem_range.mpr (by omega), ?_⟩
      show pf.close (i + 1 - 50 + 49) = pf.close i
      congr 1
      omega
    have h1 : aggMin (winList pf.close 50 i) ≤ pf.close i := aggMin_le_mem hmem
    have h2 : pf.close i ≤ aggMax (winList pf.close 50 i) := mem_le_aggMax hmem
    have hpos : 0 <
        aggMax (winList pf.close 50 i) - aggMin (winList pf.close 50 i) :=
      lt_of_le_of_ne (by linarith) (Ne.symm hden)
    constructor
    · exact div_nonneg (by linarith) hpos.le
    · rw [div_le_one hpos]
      linarith

theorem summarize_zg_fields {fr : SFrame} {snap : Snapshot}
    (h : summarize fr = some snap) :
    snap.ztrap = (fr.ztrap (fr.len - 1)).map round4 ∧
    snap.gate = (fr.gate (fr.len - 1)).map round4 := by
  simp only [summarize] at h
  split_ifs at h with h0
  all_goals try exact Option.noConfusion h
  all_goals rw [Option.some.injEq] at h
  all_goals rw [← h]
  all_goals exact ⟨rfl, rfl⟩

/-- Claim C3: wherever the computed metrics are defined, `z_trap` lies in
`[0, 1]`, `sigma` and `gate` are nonnegative, and the price location lies in
`[0, 1]`; the rounded `Z_Trap` and `Gate` fields of the summary snapshot
returned by a full evaluation satisfy the same bounds. -/
theorem claimC3_boundedness (e : SLEDEngine) (pf : PriceFrame) (i : ℕ) :
    (∀ z, zTrapCol e pf i = some z → 0 ≤ z ∧ z ≤ 1) ∧
    (∀ s, sigmaCol e pf i = some s → 0 ≤ s) ∧
    (∀ g, gateCol e pf i = some g → 0 ≤ g) ∧
    (∀ p, priceLocCol pf i = some p → 0 ≤ p ∧ p ≤ 1) ∧
    (∀ snap, e.evaluate pf = some snap →
      (∀ z, snap.ztrap = some z → 0 ≤ z ∧ z ≤ 1) ∧
      (∀ g, snap.gate = some g → 0 ≤ g)) := by
  refine ⟨fun z hz => zTrap_mem_unit hz, fun s hs => sigma_nonneg hs,
    fun g hg => gate_nonneg hg, fun p hp => priceLoc_mem_unit hp, ?_⟩
  intro snap hsnap
  rw [SLEDEngine.evaluate] at hsnap
  obtain ⟨hzf, hgf⟩ := summarize_zg_fields hsnap
  rw [show (SLEDEngine.calculate e pf).ztrap = zTrapCol e pf from rfl,
    show (SLEDEngine.calculate e pf).len = pf.len from rfl] at hzf
  rw [show (SLEDEngine.calculate e pf).gate = gateCol e pf from rfl,
    show (SLEDEngine.calculate e pf).len = pf.len from rfl] at hgf
  constructor
  · intro z hz
    rw [hzf] at hz
    rcases hz0 : zTrapCol e pf (pf.len - 1) with _ | z0 <;>
      simp only [hz0, Option.map_none', Option.map_some',
        Option.some.injEq] at hz
    · exact Option.noConfusion hz
    · obtain ⟨hb0, hb1⟩ := zTrap_mem_unit hz0
      rw [← hz]
      constructor
      · have hm := round4_mono hb0
        rwa [round4_zero] at hm
      · have hm := round4_mono hb1
        rwa [round4_one] at hm
  · intro g hg
    rw [hgf] at hg
    rcases hg0 : gateCol e pf (pf.len - 1) with _ | g0 <;>
      simp only [hg0, Option.map_none', Option.map_some',
        Option.some.injEq] at hg
    · exact Option.noConfusion hg
    · have hb0 := gate_nonneg hg0
      rw [← hg]
      have hm := round4_mono hb0
      rwa [round4_zero] at hm

theorem claimC3_witness :
    ((0 : ℝ) ≤ 1 ∧ (1 : ℝ) ≤ 1) ∧ ((0 : ℝ) ≤ 0) ∧ ((0 : ℝ) ≤ 0) ∧
    ((0 : ℝ) ≤ 0.5 ∧ (0.5 : ℝ) ≤ 1) ∧
    ∃ snap, SLEDEngine.evaluate engine20 pfConst = some snap ∧
      (∀ z, snap.ztrap = some z → 0 ≤ z ∧ z ≤ 1) ∧
      (∀ g, snap.gate = some g → 0 ≤ g) := by
  have h := claimC3_boundedness engine20 pfConst 118
  have hz : zTrapCol engine20 pfConst 118 = some 1 :=
    zTrap_of_constClose (c := 5) (by norm_num) (fun t => rfl) (by decide)
      (by decide) (by decide) (by decide) (by decide)
  have hs : sigmaCol engine20 pfConst 118 = some 0 :=
    sigma_of_constVol (v := 100) rfl (fun t => rfl) (by norm_num) (by decide)
      (by decide) (by decide) (by decide) (by decide)
  have hg : gateCol engine20 pfConst 118 = some 0 := by
    simp only [gateCol, hz, hs]
    norm_num
  have hp : priceLocCol pfConst 118 = some 0.5 :=
    priceLoc_of_constClose (fun t => rfl) (by decide) (by decide)
  have heval : ∃ snap, SLEDEngine.evaluate engine20 pfConst = some snap := by
    rw [SLEDEngine.evaluate, summarize,
      if_neg (by decide : ¬(SLEDEngine.calculate engine20 pfConst).len = 0)]
    exact ⟨_, rfl⟩
  obtain ⟨snap, hsnap⟩ := heval
  exact ⟨h.1 1 hz, h.2.1 0 hs, h.2.2.1 0 hg, h.2.2.2.1 0.5 hp,
    snap, hsnap, h.2.2.2.2 snap hsnap⟩


/-! ## The phase-0 signal rule (claim C1) -/

theorem logRet_pfC1 {t : ℕ} (ht : 1 ≤ t) : logRet pfC1 t = Real.log 2 := by
  obtain ⟨u, rfl⟩ : ∃ u, t = u + 1 := ⟨t - 1, by omega⟩
  rw [logRet, if_neg (by omega : ¬u + 1 = 0)]
  have h1 : pfC1.close (u + 1) = (2 : ℝ) ^ (u + 1) := rfl
  have h2 : pfC1.close (u + 1 - 1) = (2 : ℝ) ^ u := rfl
  rw [h1, h2, pow_succ]
  congr 1
  rw [mul_comm, mul_div_assoc, div_self (pow_ne_zero u two_ne_zero), mul_one]

theorem rollingStd_pfC1 {i : ℕ} (h20 : 20 ≤ i) (hil : i < 150) :
    rollingStdCol engine20 pfC1 i = some 0 := by
  have hwl : winList (logRet pfC1) engine20.window i =
      List.replicate engine20.window (Real.log 2) := by
    apply winList_congr
    intro k hk
    apply logRet_pfC1
    have hw : engine20.window = 20 := rfl
    omega
  rw [rollingStdCol,
    rollingR_eq (by have hw : engine20.window = 20 := rfl; omega)
      (by have hlen : pfC1.len = 150 := rfl; omega),
    hwl, sampleStd_replicate (by decide)]

theorem zTrapC1_149 : zTrapCol engine20 pfC1 149 = some 1 := by
  have hstd : ∀ k < engine20.lookback,
      rollingStdCol engine20 pfC1 (149 + 1 - engine20.lookback + k) = some 0 := by
    intro k hk
    have hlb : engine20.lookback = 100 := rfl
    rw [hlb] at hk ⊢
    exact rollingStd_pfC1 (by omega) (by omega)
  have hmn : rMinCol engine20 pfC1 149 =
      some (aggMin (List.replicate engine20.lookback 0)) := by
    rw [rMinCol]
    exact rollingO_const (by have hlb : engine20.lookback = 100 := rfl; omega)
      (by have hlen : pfC1.len = 150 := rfl; omega) hstd
  have hmx : rMaxCol engine20 pfC1 149 =
      some (aggMax (List.replicate engine20.lookback 0)) := by
    rw [rMaxCol]
    exact rollingO_const (by have hlb : engine20.lookback = 100 := rfl; omega)
      (by have hlen : pfC1.len = 150 := rfl; omega) hstd
  have hsd : rollingStdCol engine20 pfC1 149 = some 0 :=
    rollingStd_pfC1 (by norm_num) (by norm_num)
  rw [zTrapCol, normVolCol, hsd, hmn, hmx, aggMin_replicate (by decide) (0 : ℝ),
    aggMax_replicate (by decide) (0 : ℝ)]
  norm_num

theorem sumVolC1_pos : 0 < Finset.sum (Finset.range pfC1.len) volC1 := by
  have hterm : ∀ t ∈ Finset.range pfC1.len, (0 : ℝ) ≤ volC1 t := by
    intro t _
    simp only [volC1]
    split_ifs <;> norm_num
  have h0 : (100 : ℝ) ≤ Finset.sum (Finset.range pfC1.len) volC1 := by
    have h00 : volC1 0 = 100 := rfl
    calc (100 : ℝ) = volC1 0 := h00.symm
      _ ≤ _ := Finset.single_le_sum hterm (Finset.mem_range.mpr (by decide))
  linarith

theorem sigmaC1_eq {i : ℕ} (h19 : 19 ≤ i) (hil : i < 150) :
    sigmaCol engine20 pfC1 i =
      some (getEnt engine20.entropyBins (winList volC1 engine20.window i)) := by
  simp only [sigmaCol, show pfC1.volume = some volC1 from rfl]
  rw [if_pos sumVolC1_pos]
  exact rollingR_eq (by have hw : engine20.window = 20 := rfl; omega)
    (by have hlen : pfC1.len = 150 := rfl; omega)

theorem sigmaC1_zero {i : ℕ} (h19 : 19 ≤ i) (h139 : i ≤ 139) :
    sigmaCol engine20 pfC1 i = some 0 := by
  have hwl : winList volC1 engine20.window i =
      List.replicate engine20.window (100 : ℝ) := by
    apply winList_congr
    intro k hk
    rw [show engine20.window = 20 from rfl] at hk ⊢
    simp only [volC1]
    rw [if_pos (by omega)]
  rw [sigmaC1_eq h19 (by omega), hwl, getEnt_replicate (by decide) (by decide)]

theorem winListVolC1_149 :
    winList volC1 engine20.window 149 =
      List.replicate 10 (100 : ℝ) ++ List.replicate 10 0 := by
  rw [winList, show engine20.window = 20 from rfl,
    show (149 + 1 - 20 : ℕ) = 130 from rfl,
    show (20 : ℕ) = 10 + 10 from rfl, List.range_add, List.map_append]
  congr 1

theorem binIdxC1_hi : binIdx 10 0 100 (100 : ℝ) = 9 := by
  rw [binIdx]
  have h1 : ((100 : ℝ) - 0) * ((10 : ℕ) : ℝ) / ((100 : ℝ) - 0) = 10 := by
    norm_num
  rw [h1]
  have h2 : ⌊(10 : ℝ)⌋ = 10 := by
    rw [Int.floor_eq_iff]
    norm_num
  rw [h2]
  decide

theorem binIdxC1_lo : binIdx 10 0 100 (0 : ℝ) = 0 := by
  rw [binIdx]
  have h1 : ((0 : ℝ) - 0) * ((10 : ℕ) : ℝ) / ((100 : ℝ) - 0) = 0 := by
    norm_num
  rw [h1, Int.floor_zero]
  decide

theorem shannonEnt_pair {bins n b0 b1 : ℕ} (hn : n ≠ 0) (hb0 : b0 < bins)
    (hb1 : b1 < bins) (hne : b0 ≠ b1) (cnt : ℕ → ℕ)
    (hcnt : ∀ k, cnt k =
      (if b0 = k then n else 0) + (if b1 = k then n else 0)) :
    shannonEnt bins cnt = 1 := by
  have hcb0 : cnt b0 = n := by
    rw [hcnt b0, if_pos rfl, if_neg fun hh => hne hh.symm]
    omega
  have hcb1 : cnt b1 = n := by
    rw [hcnt b1, if_neg hne, if_pos rfl]
    omega
  have htot : Finset.sum (Finset.range bins) cnt = 2 * n := by
    have hstep : Finset.sum (Finset.range bins) cnt =
        Finset.sum (Finset.range bins) (fun k => if b0 = k then n else 0) +
        Finset.sum (Finset.range bins) (fun k => if b1 = k then n else 0) := by
      rw [← Finset.sum_add_distrib]
      exact Finset.sum_congr rfl fun k _ => hcnt k
    rw [hstep, Finset.sum_ite_eq, Finset.sum_ite_eq,
      if_pos (Finset.mem_range.mpr hb0), if_pos (Finset.mem_range.mpr hb1)]
    omega
  have hhalf : ((n : ℕ) : ℝ) / ((2 * n : ℕ) : ℝ) = 1 / 2 := by
    have hn2 : ((n : ℕ) : ℝ) ≠ 0 := Nat.cast_ne_zero.mpr hn
    push_cast
    field_simp
    ring
  have hlog : Real.logb 2 ((1 : ℝ) / 2) = -1 := by
    rw [show (1 : ℝ) / 2 = 2⁻¹ by norm_num, Real.logb_inv,
      Real.logb_self_eq_one (by norm_num)]
  have hterm : ∀ k ∈ Finset.range bins,
      (if cnt k ≠ 0 then ((cnt k : ℝ) / ((2 * n : ℕ) : ℝ)) *
        Real.logb 2 ((cnt k : ℝ) / ((2 * n : ℕ) : ℝ)) else 0) =
      (if b0 = k then -(1 : ℝ) / 2 else 0) +
        (if b1 = k then -(1 : ℝ) / 2 else 0) := by
    intro k _
    by_cases h0 : b0 = k
    · subst h0
      rw [hcb0, if_pos hn, hhalf, hlog, if_pos rfl,
        if_neg fun hh => hne hh.symm]
      norm_num
    · by_cases h1 : b1 = k
      · subst h1
        rw [hcb1, if_pos hn, hhalf, hlog, if_neg h0, if_pos rfl]
        norm_num
      · have hck : cnt k = 0 := by
          rw [hcnt k, if_neg h0, if_neg h1]
        rw [hck, if_neg (by norm_num : ¬(0 : ℕ) ≠ 0), if_neg h0, if_neg h1]
        norm_num
  simp only [shannonEnt]
  rw [htot, if_neg (by omega : ¬2 * n = 0), Finset.sum_congr rfl hterm,
    Finset.sum_add_distrib, Finset.sum_ite_eq, Finset.sum_ite_eq,
    if_pos (Finset.mem_range.mpr hb0), if_pos (Finset.mem_range.mpr hb1)]
  norm_num

theorem getEnt_pairC1 :
    getEnt 10 (List.replicate 10 (100 : ℝ) ++ List.replicate 10 0) = 1 := by
  have hlo : aggMin (List.replicate 10 (100 : ℝ) ++ List.replicate 10 0) = 0 := by
    apply aggMin_eq
    · exact List.mem_append.mpr (Or.inr (List.mem_replicate.mpr
        ⟨by norm_num, rfl⟩))
    · intro x hx
      rcases List.mem_append.mp hx with h1 | h2
      · rw [List.eq_of_mem_replicate h1]
        norm_num
      · rw [List.eq_of_mem_replicate h2]
  have hhi : aggMax (List.replicate 10 (100 : ℝ) ++ List.replicate 10 0) =
      100 := by
    apply aggMax_eq
    · exact List.mem_append.mpr (Or.inl (List.mem_replicate.mpr
        ⟨by norm_num, rfl⟩))
    · intro x hx
      rcases List.mem_append.mp hx with h1 | h2
      · rw [List.eq_of_mem_replicate h1]
      · rw [List.eq_of_mem_replicate h2]
        norm_num
  simp only [getEnt]
  rw [hlo, hhi, if_neg (by norm_num : ¬(0 : ℝ) = 100),
    if_neg (by norm_num : ¬(0 : ℝ) = 100)]
  refine @shannonEnt_pair 10 10 9 0 (by norm_num) (by norm_num) (by norm_num)
    (by norm_num) _ ?_
  intro k
  simp only [histCnt, List.countP_append, countP_replicate, binIdxC1_hi,
    binIdxC1_lo, decide_eq_true_eq]

theorem sigmaC1_149 : sigmaCol engine20 pfC1 149 = some 1 := by
  rw [sigmaC1_eq (by norm_num) (by norm_num), winListVolC1_149,
    show engine20.entropyBins = 10 from rfl, getEnt_pairC1]

theorem priceLocC1_149 : priceLocCol pfC1 149 = some 1 := by
  have hmem : (2 : ℝ) ^ (100 : ℕ) ∈ winList pfC1.close 50 149 := by
    rw [winList]
    refine List.mem_map.mpr ⟨0, List.mem_range.mpr (by norm_num), ?_⟩
    rfl
  have hmem2 : (2 : ℝ) ^ (149 : ℕ) ∈ winList pfC1.close 50 149 := by
    rw [winList]
    refine List.mem_map.mpr ⟨49, List.mem_range.mpr (by norm_num), ?_⟩
    rfl
  have hlo : aggMin (winList pfC1.close 50 149) = (2 : ℝ) ^ (100 : ℕ) := by
    apply aggMin_eq hmem
    intro x hx
    rcases List.mem_map.mp hx with ⟨k, hk, rfl⟩
    rw [List.mem_range] at hk
    show (2 : ℝ) ^ (100 : ℕ) ≤ (2 : ℝ) ^ (149 + 1 - 50 + k)
    exact pow_le_pow_right (by norm_num) (by omega)
  have hhi : aggMax (winList pfC1.close 50 149) = (2 : ℝ) ^ (149 : ℕ) := by
    apply aggMax_eq hmem2
    intro x hx
    rcases List.mem_map.mp hx with ⟨k, hk, rfl⟩
    rw [List.mem_range] at hk
    show (2 : ℝ) ^ (149 + 1 - 50 + k) ≤ (2 : ℝ) ^ (149 : ℕ)
    exact pow_le_pow_right (by norm_num) (by omega)
  have hne : (2 : ℝ) ^ (149 : ℕ) - (2 : ℝ) ^ (100 : ℕ) ≠ 0 :=
    sub_ne_zero.mpr (ne_of_gt (pow_lt_pow_right (by norm_num) (by norm_num)))
  simp only [priceLocCol]
  rw [if_pos (And.intro (by norm_num) (by decide)), hlo, hhi, if_neg hne,
    show pfC1.close 149 = (2 : ℝ) ^ (149 : ℕ) from rfl, div_self hne]

theorem entThreshC1_none : entThreshCol engine20 pfC1 149 = none := by
  rw [entThreshCol]
  exact rollingO_none_short (by have hlen : pfC1.len = 150 := rfl; omega)

theorem filterMap_some_eq_map {g : ℕ → ℝ} (l : List ℕ) :
    l.filterMap (fun k => some (g k)) = l.map g := by
  induction l with
  | nil => rfl
  | cons a t ih => simp only [List.filterMap_cons, List.map_cons, ih]

theorem sigmaValsC1 :
    sigmaVals engine20 pfC1 = List.replicate 121 (0 : ℝ) ++
      (List.range 10).map (fun k =>
        getEnt engine20.entropyBins (winList volC1 engine20.window (140 + k))) := by
  rw [sigmaVals, show pfC1.len = 150 from rfl,
    show (150 : ℕ) = 140 + 10 from rfl, List.range_add, List.filterMap_append]
  congr 1
  · rw [show (140 : ℕ) = 19 + 121 from rfl, List.range_add,
      List.filterMap_append, List.filterMap_map]
    have h1 : (List.range 19).filterMap (sigmaCol engine20 pfC1) = [] :=
      List.filterMap_eq_nil_iff.mpr fun a ha =>
        sigma_none_short engine20 pfC1 a
          (by have hw : engine20.window = 20 := rfl
              have ha2 := List.mem_range.mp ha
              omega)
    rw [h1, List.nil_append]
    refine filterMap_const_some fun k hk => ?_
    show sigmaCol engine20 pfC1 (19 + k) = some 0
    exact sigmaC1_zero (by omega) (by omega)
  · rw [List.filterMap_map]
    have hcg : ∀ a ∈ List.range 10, (sigmaCol engine20 pfC1 ∘ (140 + ·)) a =
        some (getEnt engine20.entropyBins
          (winList volC1 engine20.window (140 + a))) := by
      intro a ha
      rw [List.mem_range] at ha
      show sigmaCol engine20 pfC1 (140 + a) = some (getEnt engine20.entropyBins
        (winList volC1 engine20.window (140 + a)))
      exact sigmaC1_eq (by omega) (by omega)
    rw [List.filterMap_congr hcg]
    exact filterMap_some_eq_map (List.range 10)

theorem sorted_count_take {a : ℝ} :
    ∀ (m : ℕ) (s l : List ℝ), List.Sorted (fun x y => x ≤ y) s → s.Perm l →
      (∀ x ∈ l, a ≤ x) → m ≤ l.count a → s.take m = List.replicate m a := by
  intro m
  induction m with
  | zero =>
    intro s l _ _ _ _
    rfl
  | succ k ih =>
    intro s l hs hp hlb hcnt
    have hmem_l : a ∈ l := List.count_pos_iff.mp (by omega)
    have hmem_s : a ∈ s := hp.mem_iff.mpr hmem_l
    rcases s with _ | ⟨b, s2⟩
    · exact absurd hmem_s (List.not_mem_nil a)
    · have hb_l : b ∈ l := hp.mem_iff.mp (List.mem_cons_self b s2)
      have hab : a ≤ b := hlb b hb_l
      have hba : b ≤ a := by
        rcases List.mem_cons.mp hmem_s with heq | hmem2
        · exact le_of_eq heq.symm
        · exact (List.sorted_cons.mp hs).1 a hmem2
      have hba2 : b = a := le_antisymm hba hab
      subst hba2
      have hperm2 : s2.Perm (l.erase b) := by
        have h2 : l.Perm (b :: l.erase b) := List.perm_cons_erase hmem_l
        exact (hp.trans h2).cons_inv
      have hs2 : List.Sorted (fun x y => x ≤ y) s2 := (List.sorted_cons.mp hs).2
      have hlb2 : ∀ x ∈ l.erase b, b ≤ x := fun x hx =>
        hlb x (List.mem_of_mem_erase hx)
      have hcnt2 : k ≤ (l.erase b).count b := by
        rw [List.count_erase_self]
        omega
      rw [List.take_succ_cons, List.replicate_succ,
        ih s2 (l.erase b) hs2 hperm2 hlb2 hcnt2]

theorem quantileC1 : quantileLinear 0.85 (sigmaVals engine20 pfC1) = 0 := by
  have hlen : (sigmaVals engine20 pfC1).length = 131 := by
    rw [sigmaValsC1, List.length_append, List.length_replicate,
      List.length_map, List.length_range]
  have hlb : ∀ x ∈ sigmaVals engine20 pfC1, (0 : ℝ) ≤ x := by
    intro x hx
    rw [sigmaValsC1] at hx
    rcases List.mem_append.mp hx with h1 | h2
    · rw [List.eq_of_mem_replicate h1]
    · rcases List.mem_map.mp h2 with ⟨k, _, rfl⟩
      exact getEnt_nonneg _ _
  have hcnt : 112 ≤ (sigmaVals engine20 pfC1).count 0 := by
    rw [sigmaValsC1, List.count_append]
    have h121 : (List.replicate 121 (0 : ℝ)).count 0 = 121 := by
      rw [List.count_replicate, if_pos (beq_self_eq_true (0 : ℝ))]
    omega
  have hsorted := List.sorted_insertionSort (fun x y : ℝ => x ≤ y)
    (sigmaVals engine20 pfC1)
  have hperm := List.perm_insertionSort (fun x y : ℝ => x ≤ y)
    (sigmaVals engine20 pfC1)
  have htake := sorted_count_take 112 _ _ hsorted hperm hlb hcnt
  have hget : ∀ m : ℕ, m < 112 →
      (List.insertionSort (fun x y : ℝ => x ≤ y)
        (sigmaVals engine20 pfC1)).getD m 0 = 0 := by
    intro m hm
    have h1 : ((List.insertionSort (fun x y : ℝ => x ≤ y)
        (sigmaVals engine20 pfC1)).take 112)[m]? =
        (List.insertionSort (fun x y : ℝ => x ≤ y)
          (sigmaVals engine20 pfC1))[m]? := by
      rw [List.getElem?_take, if_pos hm]
    rw [List.getD_eq_getElem?_getD, ← h1, htake, List.getElem?_replicate,
      if_pos hm]
    rfl
  simp only [quantileLinear, hlen]
  rw [if_neg (by norm_num : ¬(131 : ℕ) = 0)]
  have hh : (0.85 : ℝ) * (((131 : ℕ) : ℝ) - 1) = 110.5 := by norm_num
  rw [hh]
  have hfl : ⌊(110.5 : ℝ)⌋ = 110 := by
    rw [Int.floor_eq_iff]
    norm_num
  rw [hfl, show ((110 : ℤ)).toNat = (110 : ℕ) from rfl,
    hget 110 (by norm_num), show (110 : ℕ) + 1 = 111 from rfl,
    hget 111 (by norm_num)]
  norm_num

theorem specEntThreshC1 : specEntThresh engine20 pfC1 149 = 0 := by
  rw [specEntThresh, entThreshC1_none, Option.getD_none, quantileC1]

/-- Claim C1 (amended): a sample is phase-0 exactly when its z-trap, sigma
and the rolling 85th-percentile sigma threshold over a 200-sample window
are all defined with `z_trap > 0.75` and `sigma` above the threshold; the
threshold is undefined — with no fallback to a full-series percentile —
whenever fewer than 200 samples of history exist.  Within phase-0 the
signal is BUY when the price location is below 0.4 and SELL when it is
above 0.6. -/
theorem claimC1_phase0_signals (e : SLEDEngine) (pf : PriceFrame) (i : ℕ) :
    (signalBuyCol e pf i = 1 ↔ phase0 e pf i ∧ locBuy pf i) ∧
    (signalSellCol e pf i = 1 ↔ phase0 e pf i ∧ locSell pf i) ∧
    (phase0 e pf i ↔ ∃ z s th, zTrapCol e pf i = some z ∧
      sigmaCol e pf i = some s ∧ entThreshCol e pf i = some th ∧
      0.75 < z ∧ th < s) ∧
    (∀ th, entThreshCol e pf i = some th → 200 ≤ i + 1 ∧ i < pf.len) := by
  refine ⟨?_, ?_, ?_, ?_⟩
  · rw [signalBuyCol]
    split_ifs with h
    · exact iff_of_true rfl h
    · exact iff_of_false (by norm_num) h
  · rw [signalSellCol]
    split_ifs with h
    · exact iff_of_true rfl h
    · exact iff_of_false (by norm_num) h
  · constructor
    · intro hp
      rcases hz : zTrapCol e pf i with _ | z <;>
        rcases hs : sigmaCol e pf i with _ | s <;>
          rcases hth : entThreshCol e pf i with _ | th <;>
            simp only [phase0, hz, hs, hth] at hp
      exact ⟨z, s, th, rfl, rfl, rfl, hp⟩
    · rintro ⟨z, s, th, hz, hs, hth, h1, h2⟩
      simp only [phase0, hz, hs, hth]
      exact ⟨h1, h2⟩
  · intro th hth
    by_contra hnot
    rw [entThreshCol, rollingO_none_short hnot] at hth
    exact Option.noConfusion hth

theorem claimC1_witness :
    entThreshCol engine20 pfConst219 218 = some 0 ∧
    200 ≤ 218 + 1 ∧ 218 < pfConst219.len := by
  have hsig : ∀ k < 200,
      sigmaCol engine20 pfConst219 (218 + 1 - 200 + k) = some 0 := by
    intro k hk
    exact sigma_of_constVol (v := 100) rfl (fun t => rfl) (by norm_num)
      (by decide) (by decide) (by decide)
      (by have hw : engine20.window = 20 := rfl; omega)
      (by have hlen : pfConst219.len = 219 := rfl; omega)
  have hth : entThreshCol engine20 pfConst219 218 = some 0 := by
    rw [entThreshCol,
      rollingO_const (by norm_num : (200 : ℕ) ≤ 218 + 1)
        (by decide : 218 < pfConst219.len) hsig,
      quantileLinear_replicate (n := 200) (q := 0.85) (by norm_num)
        (by norm_num) (by norm_num) 0]
  exact ⟨hth, (claimC1_phase0_signals engine20 pfConst219 218).2.2.2 0 hth⟩

/-- Claim C1 as stated fails: on the 150-row geometric price series with a
volume that dries up over the last ten rows, the spec's rule (with its
full-series-percentile fallback below 200 samples of history) flags a SELL
on the last row, but the computed `Signal_Sell` column stays 0 because the
code's rolling 200-sample threshold is simply undefined there. -/
theorem claimC1_counterexample :
    signalSellCol engine20 pfC1 149 = 0 ∧
    specSignalSell engine20 pfC1 149 = 1 ∧
    ¬signalSellCol engine20 pfC1 149 = specSignalSell engine20 pfC1 149 := by
  have hphase : ¬phase0 engine20 pfC1 149 := by
    intro hp
    simp only [phase0, zTrapC1_149, sigmaC1_149, entThreshC1_none] at hp
  have hsell : signalSellCol engine20 pfC1 149 = 0 := by
    rw [signalSellCol, if_neg fun hc => hphase hc.1]
  have hsp : specPhase0 engine20 pfC1 149 := by
    simp only [specPhase0, zTrapC1_149, sigmaC1_149]
    refine ⟨by norm_num, ?_⟩
    rw [specEntThreshC1]
    norm_num
  have hls : locSell pfC1 149 := by
    simp only [locSell, priceLocC1_149]
    norm_num
  have hspec : specSignalSell engine20 pfC1 149 = 1 := by
    rw [specSignalSell, if_pos (And.intro hsp hls)]
  refine ⟨hsell, hspec, ?_⟩
  rw [hsell, hspec]
  norm_num


/-! ## The bullseye flags never fire with the repository's engine
configuration (claim C2) -/

theorem negMulLogb_le {p c : ℝ} (hp : 0 < p) (hc : 0 < c) :
    -(p * Real.logb 2 p) ≤ p * Real.logb 2 c + (1 / c - p) / Real.log 2 := by
  have hlog2 : (0 : ℝ) < Real.log 2 := Real.log_pos (by norm_num)
  have hkey : Real.log ((p * c)⁻¹) ≤ (p * c)⁻¹ - 1 :=
    Real.log_le_sub_one_of_pos (by positivity)
  have h1 : -(p * Real.logb 2 p) - p * Real.logb 2 c =
      p * (Real.log ((p * c)⁻¹) / Real.log 2) := by
    rw [Real.log_inv, Real.log_mul (ne_of_gt hp) (ne_of_gt hc)]
    simp only [Real.logb]
    ring
  have h2 : p * (Real.log ((p * c)⁻¹) / Real.log 2) ≤
      p * (((p * c)⁻¹ - 1) / Real.log 2) :=
    mul_le_mul_of_nonneg_left ((div_le_div_right hlog2).mpr hkey) (le_of_lt hp)
  have h3 : p * (((p * c)⁻¹ - 1) / Real.log 2) = (1 / c - p) / Real.log 2 := by
    have hpc : p * (p * c)⁻¹ = 1 / c := by
      rw [mul_inv, ← mul_assoc, mul_inv_cancel₀ (ne_of_gt hp), one_mul, one_div]
    calc p * (((p * c)⁻¹ - 1) / Real.log 2)
        = (p * (p * c)⁻¹ - p) / Real.log 2 := by ring
      _ = (1 / c - p) / Real.log 2 := by rw [hpc]
  linarith

theorem shannonEnt_le_logb (bins : ℕ) (cnt : ℕ → ℕ) :
    shannonEnt bins cnt ≤ Real.logb 2 (bins : ℝ) := by
  have hlogb0 : 0 ≤ Real.logb 2 (bins : ℝ) := by
    rcases Nat.eq_zero_or_pos bins with h0 | h1
    · rw [h0]
      simp
    · exact Real.logb_nonneg (by norm_num) (by exact_mod_cast h1)
  simp only [shannonEnt]
  split_ifs with hT
  · exact hlogb0
  · set T : ℝ := ((Finset.sum (Finset.range bins) cnt : ℕ) : ℝ) with hTdef
    have hTpos : (0 : ℝ) < T := by
      rw [hTdef]
      exact_mod_cast Nat.pos_of_ne_zero hT
    have hbins0 : bins ≠ 0 := by
      intro hb0
      apply hT
      subst hb0
      simp
    have hbinsR : (0 : ℝ) < (bins : ℝ) := by
      exact_mod_cast Nat.pos_of_ne_zero hbins0
    have hlog2 : (0 : ℝ) < Real.log 2 := Real.log_pos (by norm_num)
    have hterm : ∀ k ∈ Finset.range bins,
        -(if cnt k ≠ 0 then ((cnt k : ℝ) / T) * Real.logb 2 ((cnt k : ℝ) / T)
          else 0) ≤
        ((cnt k : ℝ) / T) * Real.logb 2 (bins : ℝ) +
          (1 / (bins : ℝ) - (cnt k : ℝ) / T) / Real.log 2 := by
      intro k _
      by_cases hck : cnt k ≠ 0
      · rw [if_pos hck]
        exact negMulLogb_le
          (div_pos (by exact_mod_cast Nat.pos_of_ne_zero hck) hTpos) hbinsR
      · rw [if_neg hck]
        rw [not_not] at hck
        have hc0 : ((cnt k : ℕ) : ℝ) = 0 := by exact_mod_cast hck
        rw [hc0]
        simp only [zero_div, zero_mul, neg_zero, zero_add, sub_zero]
        positivity
    have hsump : Finset.sum (Finset.range bins) (fun k => (cnt k : ℝ) / T) =
        1 := by
      rw [← Finset.sum_div, hTdef, ← Nat.cast_sum]
      exact div_self (by exact_mod_cast hT)
    have hsumc : Finset.sum (Finset.range bins)
        (fun _ => 1 / (bins : ℝ)) = 1 := by
      rw [Finset.sum_const, Finset.card_range, nsmul_eq_mul, mul_one_div,
        div_self (ne_of_gt hbinsR)]
    calc -Finset.sum (Finset.range bins) (fun k =>
          if cnt k ≠ 0 then ((cnt k : ℝ) / T) * Real.logb 2 ((cnt k : ℝ) / T)
          else 0)
        = Finset.sum (Finset.range bins) (fun k =>
            -(if cnt k ≠ 0 then
              ((cnt k : ℝ) / T) * Real.logb 2 ((cnt k : ℝ) / T) else 0)) := by
          rw [← Finset.sum_neg_distrib]
      _ ≤ Finset.sum (Finset.range bins) (fun k =>
            ((cnt k : ℝ) / T) * Real.logb 2 (bins : ℝ) +
              (1 / (bins : ℝ) - (cnt k : ℝ) / T) / Real.log 2) :=
          Finset.sum_le_sum hterm
      _ = (Finset.sum (Finset.range bins) fun k => (cnt k : ℝ) / T) *
            Real.logb 2 (bins : ℝ) +
          ((Finset.sum (Finset.range bins) fun _ => 1 / (bins : ℝ)) -
            Finset.sum (Finset.range bins) fun k => (cnt k : ℝ) / T) /
            Real.log 2 := by
          rw [Finset.sum_add_distrib]
          congr 1
          · rw [Finset.sum_mul]
          · rw [← Finset.sum_sub_distrib, Finset.sum_div]
      _ = Real.logb 2 (bins : ℝ) := by
          rw [hsump, hsumc]
          norm_num

theorem getEnt_le_logb (bins : ℕ) (s : List ℝ) :
    getEnt bins s ≤ Real.logb 2 (bins : ℝ) := by
  simp only [getEnt]
  exact shannonEnt_le_logb bins _

theorem logb_ten_le_four : Real.logb 2 ((10 : ℕ) : ℝ) ≤ 4 := by
  rw [Real.logb, div_le_iff (Real.log_pos (by norm_num))]
  have h16 : (4 : ℝ) * Real.log 2 = Real.log 16 := by
    rw [show (16 : ℝ) = 2 ^ (4 : ℕ) by norm_num, Real.log_pow]
    push_cast
    ring
  rw [h16, Real.log_le_log_iff (by norm_num) (by norm_num)]
  norm_num

theorem sigmaAux_le_six {pf : PriceFrame} {i : ℕ} {s : ℝ}
    (h : (rollingR engine20.window (getEnt engine20.entropyBins) (logRet pf)
      pf.len i).map (fun x => x * 1.5) = some s) : s ≤ 6 := by
  rcases hr : rollingR engine20.window (getEnt engine20.entropyBins)
      (logRet pf) pf.len i with _ | x <;>
    simp only [hr, Option.map_none', Option.map_some', Option.some.injEq] at h
  all_goals try exact Option.noConfusion h
  have hx : x =
      getEnt engine20.entropyBins (winList (logRet pf) engine20.window i) :=
    rollingR_some hr
  have hxb : x ≤ 4 := by
    rw [hx]
    refine le_trans (getEnt_le_logb _ _) ?_
    rw [show engine20.entropyBins = 10 from rfl]
    exact logb_ten_le_four
  rw [← h]
  linarith

theorem sigma_le_six {pf : PriceFrame} {i : ℕ} {s : ℝ}
    (h : sigmaCol engine20 pf i = some s) : s ≤ 6 := by
  simp only [sigmaCol] at h
  rcases hv : pf.volume with _ | vf <;> simp only [hv] at h
  · exact sigmaAux_le_six h
  · split_ifs at h with hsum
    · have hx : s =
          getEnt engine20.entropyBins (winList vf engine20.window i) :=
        rollingR_some h
      rw [hx]
      refine le_trans (getEnt_le_logb _ _) ?_
      refine le_trans ?_ (by norm_num : (4 : ℝ) ≤ 6)
      rw [show engine20.entropyBins = 10 from rfl]
      exact logb_ten_le_four
    · exact sigmaAux_le_six h

theorem gate_lt_of_phase0 {pf : PriceFrame} {i : ℕ}
    (hph : phase0 engine20 pf i) {g : ℝ}
    (hg : gateCol engine20 pf i = some g) : g < 1.6 := by
  rcases hz : zTrapCol engine20 pf i with _ | z <;>
    rcases hs : sigmaCol engine20 pf i with _ | s <;>
      rcases hth : entThreshCol engine20 pf i with _ | th <;>
        simp only [phase0, hz, hs, hth] at hph
  have hs6 : s ≤ 6 := sigma_le_six hs
  have hs0 : 0 ≤ s := sigma_nonneg hs
  have hgate : gateCol engine20 pf i = some ((1 - z) * s) := by
    simp only [gateCol, hz, hs]
  rw [hgate, Option.some.injEq] at hg
  have hprod : 0 ≤ (z - 0.75) * s :=
    mul_nonneg (by linarith [hph.1]) hs0
  have hA : (z - 0.75) * s = z * s - 0.75 * s := by ring
  have hB : (1 - z) * s = s - z * s := by ring
  linarith

theorem bullseye_never_fires (pf : PriceFrame) (snap : Snapshot)
    (h : SLEDEngine.evaluate engine20 pf = some snap) :
    ¬snap.bullseyeBuy ∧ ¬snap.bullseyeSell := by
  rw [SLEDEngine.evaluate] at h
  simp only [summarize] at h
  split_ifs at h with h0 h1 h2
  all_goals try exact Option.noConfusion h
  all_goals rw [Option.some.injEq] at h
  all_goals rw [← h]
  · have h1a : signalBuyCol engine20 pf (pf.len - 1) = 1 := h1
    have hphase : phase0 engine20 pf (pf.len - 1) := by
      by_contra hc
      rw [signalBuyCol, if_neg fun hcc => hc hcc.1] at h1a
      exact absurd h1a (by norm_num)
    constructor
    · intro hb
      obtain ⟨-, ⟨g, hgmem, hg16⟩, -⟩ := hb
      have hgmem2 : gateCol engine20 pf (pf.len - 1) = some g := hgmem
      exact absurd (gate_lt_of_phase0 hphase hgmem2) (not_lt.mpr hg16)
    · intro hb
      exact absurd hb.1 (by decide)
  · have h2a : signalSellCol engine20 pf (pf.len - 1) = 1 := h2
    have hphase : phase0 engine20 pf (pf.len - 1) := by
      by_contra hc
      rw [signalSellCol, if_neg fun hcc => hc hcc.1] at h2a
      exact absurd h2a (by norm_num)
    constructor
    · intro hb
      exact absurd hb.1 (by decide)
    · intro hb
      obtain ⟨-, ⟨g, hgmem, hg16⟩, -⟩ := hb
      have hgmem2 : gateCol engine20 pf (pf.len - 1) = some g := hgmem
      exact absurd (gate_lt_of_phase0 hphase hgmem2) (not_lt.mpr hg16)
  · constructor
    · intro hb
      exact absurd hb.1 (by decide)
    · intro hb
      exact absurd hb.1 (by decide)

/-- Claim C2: with the engine configuration the repository constructs
(`window=20, lookback=100, entropy_bins=10`), no evaluated snapshot is ever
flagged bullseye — a BUY or SELL signal forces `z_trap > 0.75` while sigma
is a base-2 entropy over at most 10 bins (scaled by 1.5 in the no-volume
branch), so the unrounded gate stays below 1.5 and `summarize`'s fixed
`gate ≥ 1.6` test fails; consequently every bullseye-flagged snapshot
satisfies the claim's stated conditions (BUY/SELL signal, gate in the top
15% of its trailing 120-sample distribution, `z_trap ≤ 0.85`) vacuously. -/
theorem claimC2_bullseye_never_fires (pf : PriceFrame) (snap : Snapshot)
    (h : SLEDEngine.evaluate engine20 pf = some snap) :
    ¬snap.bullseyeBuy ∧ ¬snap.bullseyeSell ∧
    (snap.bullseyeBuy ∨ snap.bullseyeSell →
      (snap.signal = buyStr ∨ snap.signal = sellStr) ∧
      specGateTop15 (SLEDEngine.calculate engine20 pf) ∧
      ∃ z ∈ zTrapCol engine20 pf (pf.len - 1), z ≤ 0.85) := by
  obtain ⟨hnb, hns⟩ := bullseye_never_fires pf snap h
  exact ⟨hnb, hns, fun hor =>
    False.elim (hor.elim (fun hb => hnb hb) (fun hs => hns hs))⟩

theorem claimC2_witness :
    ∃ snap, SLEDEngine.evaluate engine20 pfConst = some snap ∧
      ¬snap.bullseyeBuy ∧ ¬snap.bullseyeSell := by
  have heval : ∃ snap, SLEDEngine.evaluate engine20 pfConst = some snap := by
    rw [SLEDEngine.evaluate, summarize,
      if_neg (by decide : ¬(SLEDEngine.calculate engine20 pfConst).len = 0)]
    exact ⟨_, rfl⟩
  obtain ⟨snap, hsnap⟩ := heval
  obtain ⟨hnb, hns, -⟩ := claimC2_bullseye_never_fires pfConst snap hsnap
  exact ⟨snap, hsnap, hnb, hns⟩
